import Mathlib

/-!
Verification of the retrieval core of the pinecone-read-only-mcp server.

The definitions below are shallow embeddings of the TypeScript source:
`src/pinecone-client.ts` (mergeResults, rerankResults, query, count),
`src/server/suggestion-flow.ts`, `src/server/namespace-router.ts`,
`src/server/namespaces-cache.ts` (suggestQueryParams),
`src/server/reassemble-documents.ts`, and the metadata-filter validator.
JavaScript numbers are modelled as integers, strings as Lean strings
(with character-list helpers for the operations JS performs on them),
and absent (`undefined`) values as `Option`.
Theorems then check the specified properties against these definitions.
-/

namespace PineconeMcp

/-- A Pinecone metadata value (`string | number | boolean | string[]`). -/
inductive MetaValue where
  | str (s : String)
  | num (n : Int)
  | boolv (b : Bool)
  | strList (xs : List String)
deriving DecidableEq

/-- Raw hit returned by an index search (`PineconeHit` in types.ts).
`_id`, `_score` and `fields` may be absent on the wire, hence `Option`. -/
structure PineconeHit where
  _id : Option String
  _score : Option Int
  fields : Option (List (String × MetaValue))
deriving DecidableEq

/-- Deduplicated hit produced by `mergeResults` (`MergedHit` in types.ts). -/
structure MergedHit where
  _id : String
  _score : Int
  chunk_text : String
  metadata : List (String × MetaValue)
deriving DecidableEq

/-- Final result row (`SearchResult` in types.ts). -/
structure SearchResult where
  id : String
  content : String
  score : Int
  metadata : List (String × MetaValue)
  reranked : Bool
deriving DecidableEq

/-- `hit._id || ''` : the id under which a hit is deduplicated. -/
def hitId (h : PineconeHit) : String := h._id.getD ""

/-- `hit._score || 0` : the score used for deduplication and sorting. -/
def hitScore (h : PineconeHit) : Int := h._score.getD 0

/-- The loop over `Object.entries(hit.fields || {})` in `mergeResults`:
`chunk_text` (when a string) becomes the content, every other field is
copied into the metadata record in iteration order. -/
def extractFieldsAux (content : String) (md : List (String × MetaValue)) :
    List (String × MetaValue) → String × List (String × MetaValue)
  | [] => (content, md)
  | (k, v) :: t =>
    if k = "chunk_text" then
      extractFieldsAux (match v with | .str s => s | _ => "") md t
    else
      extractFieldsAux content (md ++ [(k, v)]) t

def extractFields (fields : List (String × MetaValue)) : String × List (String × MetaValue) :=
  extractFieldsAux "" [] fields

/-- The `MergedHit` object built for one hit in the `mergeResults` loop body. -/
def toMergedHit (h : PineconeHit) : MergedHit :=
  let cm := extractFields (h.fields.getD [])
  { _id := hitId h, _score := hitScore h, chunk_text := cm.1, metadata := cm.2 }

/-- Lookup in the `deduped` record, modelled as an insertion-ordered
association list. -/
def getEntry : List (String × MergedHit) → String → Option MergedHit
  | [], _ => none
  | (k', v) :: t, k => if k' = k then some v else getEntry t k

/-- `deduped[hitId] = ...` on an existing key keeps the key's position. -/
def setEntry : List (String × MergedHit) → String → MergedHit → List (String × MergedHit)
  | [], k, v => [(k, v)]
  | (k', v') :: t, k, v => if k' = k then (k, v) :: t else (k', v') :: setEntry t k v

/-- One iteration of the `mergeResults` dedup loop: keep the stored entry
when its score is at least the new hit's score, otherwise store the new
hit's `MergedHit` (creating the key if absent). -/
def upsertHit (acc : List (String × MergedHit)) (h : PineconeHit) :
    List (String × MergedHit) :=
  match getEntry acc (hitId h) with
  | some existing =>
    if hitScore h ≤ existing._score then acc
    else setEntry acc (hitId h) (toMergedHit h)
  | none => acc ++ [(hitId h, toMergedHit h)]

/-- The sort comparator `(a, b) => (b._score || 0) - (a._score || 0)`:
descending by score. -/
def byScoreDesc (a b : MergedHit) : Prop := b._score ≤ a._score

instance : DecidableRel byScoreDesc :=
  fun a b => inferInstanceAs (Decidable (b._score ≤ a._score))

instance : IsTotal MergedHit byScoreDesc := ⟨fun a b => le_total b._score a._score⟩

instance : IsTrans MergedHit byScoreDesc := ⟨fun _ _ _ h1 h2 => le_trans h2 h1⟩

/-- `mergeResults(denseHits, sparseHits)` of pinecone-client.ts: dedup by id
over the concatenation (dense first), then sort by score descending. -/
def mergeResults (denseHits sparseHits : List PineconeHit) : List MergedHit :=
  let deduped := (denseHits ++ sparseHits).foldl upsertHit []
  List.insertionSort byScoreDesc (deduped.map Prod.snd)

/-! ### Characterization of the dedup fold -/

/-- The entry stored for one id after the loop also saw the hits `hs`
(all with that id): a later hit replaces the current entry exactly when
its score is strictly higher. -/
def absorbHits (m : MergedHit) : List PineconeHit → MergedHit
  | [] => m
  | h :: t => if m._score < hitScore h then absorbHits (toMergedHit h) t else absorbHits m t

theorem getEntry_append (l₁ l₂ : List (String × MergedHit)) (k : String) :
    getEntry (l₁ ++ l₂) k =
      match getEntry l₁ k with
      | some m => some m
      | none => getEntry l₂ k := by
  induction l₁ with
  | nil => simp [getEntry]
  | cons p t ih =>
    obtain ⟨k', v⟩ := p
    by_cases hk : k' = k <;> simp [getEntry, hk, ih]

theorem getEntry_setEntry (l : List (String × MergedHit)) (k k' : String) (v : MergedHit) :
    getEntry (setEntry l k v) k' = if k = k' then some v else getEntry l k' := by
  induction l with
  | nil =>
    by_cases h : k = k' <;> simp [setEntry, getEntry, h]
  | cons p t ih =>
    obtain ⟨k₀, v₀⟩ := p
    by_cases h0 : k₀ = k
    · subst h0
      by_cases h1 : k₀ = k' <;> simp [setEntry, getEntry, h1]
    · by_cases h1 : k₀ = k'
      · have hkk : k ≠ k' := fun he => h0 (h1.trans he.symm)
        simp [setEntry, getEntry, h0, h1, hkk, Ne.symm hkk]
      · simp [setEntry, getEntry, h0, h1, ih]

theorem map_fst_setEntry_of_mem (l : List (String × MergedHit)) (k : String) (v : MergedHit)
    (h : getEntry l k ≠ none) : (setEntry l k v).map Prod.fst = l.map Prod.fst := by
  induction l with
  | nil => simp [getEntry] at h
  | cons p t ih =>
    obtain ⟨k₀, v₀⟩ := p
    by_cases h0 : k₀ = k
    · simp [setEntry, h0]
    · simp only [getEntry, h0, if_false] at h
      simp [setEntry, h0, ih h]

theorem getEntry_upsert_ne (acc : List (String × MergedHit)) (h : PineconeHit) (k : String)
    (hne : hitId h ≠ k) : getEntry (upsertHit acc h) k = getEntry acc k := by
  unfold upsertHit
  cases hacc : getEntry acc (hitId h) with
  | none =>
    rw [getEntry_append]
    cases hk : getEntry acc k with
    | none => simp [getEntry, hne]
    | some m => simp
  | some ex =>
    by_cases hs : hitScore h ≤ ex._score
    · simp [hs]
    · simp [hs, getEntry_setEntry, hne]

theorem getEntry_upsert_self (acc : List (String × MergedHit)) (h : PineconeHit) :
    getEntry (upsertHit acc h) (hitId h) =
      some (match getEntry acc (hitId h) with
            | some ex => if ex._score < hitScore h then toMergedHit h else ex
            | none => toMergedHit h) := by
  unfold upsertHit
  cases hacc : getEntry acc (hitId h) with
  | none =>
    rw [getEntry_append, hacc]
    simp [getEntry]
  | some ex =>
    by_cases hs : hitScore h ≤ ex._score
    · have : ¬ ex._score < hitScore h := not_lt.mpr hs
      simp [hs, this, hacc]
    · have : ex._score < hitScore h := lt_of_not_le hs
      simp [hs, this, getEntry_setEntry]

/-- Full characterization of the dedup fold: the entry stored for `k` is
obtained by absorbing, in order, all hits whose id is `k`. -/
theorem getEntry_foldl_upsert (l : List PineconeHit) (acc : List (String × MergedHit))
    (k : String) :
    getEntry (l.foldl upsertHit acc) k =
      match getEntry acc k, l.filter (fun h => hitId h = k) with
      | none, [] => none
      | some m, hs => some (absorbHits m hs)
      | none, c :: t => some (absorbHits (toMergedHit c) t) := by
  induction l generalizing acc with
  | nil =>
    cases hacc : getEntry acc k <;> simp [absorbHits, hacc]
  | cons h t ih =>
    by_cases hk : hitId h = k
    · subst hk
      rw [List.foldl_cons, ih]
      rw [getEntry_upsert_self]
      cases hacc : getEntry acc (hitId h) with
      | none =>
        simp [absorbHits]
      | some ex =>
        by_cases hlt : ex._score < hitScore h <;> simp [hlt, absorbHits]
    · rw [List.foldl_cons, ih, getEntry_upsert_ne _ _ _ hk]
      simp [hk]

@[simp] theorem toMergedHit_id (h : PineconeHit) : (toMergedHit h)._id = hitId h := rfl

@[simp] theorem toMergedHit_score (h : PineconeHit) : (toMergedHit h)._score = hitScore h := rfl

theorem getEntry_eq_none_iff (l : List (String × MergedHit)) (k : String) :
    getEntry l k = none ↔ k ∉ l.map Prod.fst := by
  induction l with
  | nil => simp [getEntry]
  | cons p t ih =>
    obtain ⟨k₀, v₀⟩ := p
    by_cases h0 : k₀ = k
    · simp [getEntry, h0]
    · simp only [getEntry, h0, if_false, List.map_cons, List.mem_cons, ih]
      constructor
      · rintro hnot (he | hm)
        · exact h0 he.symm
        · exact hnot hm
      · intro hnot hm
        exact hnot (Or.inr hm)

theorem nodup_keys_upsert (acc : List (String × MergedHit)) (h : PineconeHit)
    (hacc : (acc.map Prod.fst).Nodup) : ((upsertHit acc h).map Prod.fst).Nodup := by
  unfold upsertHit
  cases hget : getEntry acc (hitId h) with
  | none =>
    have hnotmem : hitId h ∉ acc.map Prod.fst := (getEntry_eq_none_iff acc _).mp hget
    simp [List.nodup_append, hacc, hnotmem]
  | some ex =>
    by_cases hs : hitScore h ≤ ex._score
    · simpa [hs] using hacc
    · have hne : getEntry acc (hitId h) ≠ none := by simp [hget]
      simpa [hs, map_fst_setEntry_of_mem acc _ _ hne] using hacc

theorem nodup_keys_foldl_upsert (l : List PineconeHit) (acc : List (String × MergedHit))
    (hacc : (acc.map Prod.fst).Nodup) : (((l.foldl upsertHit acc)).map Prod.fst).Nodup := by
  induction l generalizing acc with
  | nil => exact hacc
  | cons h t ih => exact ih _ (nodup_keys_upsert acc h hacc)

theorem length_upsert_le (acc : List (String × MergedHit)) (h : PineconeHit) :
    (upsertHit acc h).length ≤ acc.length + 1 := by
  unfold upsertHit
  cases hget : getEntry acc (hitId h) with
  | none => simp
  | some ex =>
    by_cases hs : hitScore h ≤ ex._score
    · simp [hs]
    · have : ∀ (l : List (String × MergedHit)) (k : String) (v : MergedHit),
          (setEntry l k v).length ≤ l.length + 1 := by
        intro l k v
        induction l with
        | nil => simp [setEntry]
        | cons p t iht =>
          obtain ⟨k₀, v₀⟩ := p
          by_cases h0 : k₀ = k <;> simp [setEntry, h0] <;> omega
      simpa [hs] using this acc (hitId h) (toMergedHit h)

theorem length_foldl_upsert_le (l : List PineconeHit) (acc : List (String × MergedHit)) :
    (l.foldl upsertHit acc).length ≤ acc.length + l.length := by
  induction l generalizing acc with
  | nil => simp
  | cons h t ih =>
    calc ((h :: t).foldl upsertHit acc).length = (t.foldl upsertHit (upsertHit acc h)).length := rfl
    _ ≤ (upsertHit acc h).length + t.length := ih _
    _ ≤ (acc.length + 1) + t.length := by have := length_upsert_le acc h; omega
    _ = acc.length + (h :: t).length := by simp; omega

theorem absorbHits_id (m : MergedHit) (hs : List PineconeHit) (k : String)
    (hm : m._id = k) (hhs : ∀ h ∈ hs, hitId h = k) : (absorbHits m hs)._id = k := by
  induction hs generalizing m with
  | nil => simpa [absorbHits] using hm
  | cons h t ih =>
    by_cases hlt : m._score < hitScore h
    · simp only [absorbHits, hlt, if_true]
      exact ih (toMergedHit h) (by simpa using hhs h (by simp))
        (fun h' hh' => hhs h' (by simp [hh']))
    · simp only [absorbHits, hlt, if_false]
      exact ih m hm (fun h' hh' => hhs h' (by simp [hh']))

theorem absorbHits_score (m : MergedHit) (hs : List PineconeHit) :
    (absorbHits m hs)._score = hs.foldl (fun s h => max s (hitScore h)) m._score := by
  induction hs generalizing m with
  | nil => simp [absorbHits]
  | cons h t ih =>
    by_cases hlt : m._score < hitScore h
    · have hmax : max m._score (hitScore h) = hitScore h := by omega
      simp only [absorbHits, hlt, if_true, List.foldl_cons, hmax]
      simpa using ih (toMergedHit h)
    · have hmax : max m._score (hitScore h) = m._score := by omega
      simp only [absorbHits, hlt, if_false, List.foldl_cons, hmax]
      exact ih m

theorem mem_of_getEntry (l : List (String × MergedHit)) (k : String) (m : MergedHit)
    (h : getEntry l k = some m) : (k, m) ∈ l := by
  induction l with
  | nil => simp [getEntry] at h
  | cons p t ih =>
    obtain ⟨k₀, v₀⟩ := p
    by_cases h0 : k₀ = k
    · subst h0
      simp [getEntry] at h
      simp [h]
    · simp only [getEntry, h0, if_false] at h
      exact List.mem_cons_of_mem _ (ih h)

theorem getEntry_of_mem_nodup (l : List (String × MergedHit)) (k : String) (m : MergedHit)
    (hn : (l.map Prod.fst).Nodup) (hp : (k, m) ∈ l) : getEntry l k = some m := by
  induction l with
  | nil => simp at hp
  | cons q t ih =>
    obtain ⟨k₀, v₀⟩ := q
    rcases List.mem_cons.mp hp with heq | hmem
    · obtain ⟨h1, h2⟩ := Prod.mk.injEq .. ▸ heq.symm
      simp [getEntry, h1.symm, h2]
    · have hk : k₀ ≠ k := by
        intro he
        subst he
        exact (List.nodup_cons.mp hn).1 (List.mem_map.mpr ⟨(k₀, m), hmem, rfl⟩)
      simp only [getEntry, hk, if_false]
      exact ih (List.nodup_cons.mp hn).2 hmem

theorem entry_id_foldl_upsert (l : List PineconeHit) (p : String × MergedHit)
    (hp : p ∈ l.foldl upsertHit []) : (p.2)._id = p.1 := by
  obtain ⟨k, m⟩ := p
  have hnodup := nodup_keys_foldl_upsert l [] (by simp)
  have hget : getEntry (l.foldl upsertHit []) k = some m :=
    getEntry_of_mem_nodup _ _ _ hnodup hp
  rw [getEntry_foldl_upsert] at hget
  simp only [getEntry] at hget
  cases hf : l.filter (fun h => hitId h = k) with
  | nil => simp [hf] at hget
  | cons c t =>
    simp only [hf] at hget
    obtain rfl : absorbHits (toMergedHit c) t = m := by simpa using hget
    have hall : ∀ h ∈ c :: t, hitId h = k := by
      intro h hh
      have := List.of_mem_filter (hf ▸ hh)
      simpa using this
    exact absorbHits_id (toMergedHit c) t k (by simpa using hall c (by simp))
      (fun h hh => hall h (by simp [hh]))

theorem filter_map_snd_eq (l : List (String × MergedHit)) (k : String)
    (hn : (l.map Prod.fst).Nodup) (hid : ∀ p ∈ l, (p.2)._id = p.1) :
    (l.map Prod.snd).filter (fun m => m._id = k) =
      match getEntry l k with
      | some m => [m]
      | none => [] := by
  induction l with
  | nil => simp [getEntry]
  | cons p t ih =>
    obtain ⟨k₀, m₀⟩ := p
    have hm₀ : m₀._id = k₀ := hid (k₀, m₀) (by simp)
    simp only [List.map_cons, List.nodup_cons] at hn
    obtain ⟨hkey, htn⟩ := hn
    have ihe := ih htn (fun q hq => hid q (by simp [hq]))
    by_cases h0 : k₀ = k
    · subst h0
      have htail : (t.map Prod.snd).filter (fun m => m._id = k₀) = [] := by
        apply List.filter_eq_nil_iff.mpr
        intro m hm
        obtain ⟨q, hq, rfl⟩ := List.mem_map.mp hm
        have hq1 : (q.2)._id = q.1 := hid q (by simp [hq])
        simp only [hq1, decide_eq_true_eq]
        intro he
        exact hkey (he ▸ List.mem_map.mpr ⟨q, hq, rfl⟩)
      simp [getEntry, hm₀, htail]
    · have hne : m₀._id ≠ k := by
        rw [hm₀]; exact h0
      simp [getEntry, h0, hne, ihe]

/-- The sorted merge output, restricted to one id, is exactly the dedup
entry stored for that id. -/
theorem mergeResults_filter_id (dense sparse : List PineconeHit) (k : String) :
    (mergeResults dense sparse).filter (fun m => m._id = k) =
      match getEntry ((dense ++ sparse).foldl upsertHit []) k with
      | some m => [m]
      | none => [] := by
  unfold mergeResults
  have hperm := List.perm_insertionSort byScoreDesc
    (((dense ++ sparse).foldl upsertHit []).map Prod.snd)
  have hfil := hperm.filter (fun m => decide (m._id = k))
  have hres := filter_map_snd_eq ((dense ++ sparse).foldl upsertHit []) k
    (nodup_keys_foldl_upsert _ _ (by simp))
    (fun p hp => entry_id_foldl_upsert _ p hp)
  rw [hres] at hfil
  cases hget : getEntry ((dense ++ sparse).foldl upsertHit []) k with
  | none =>
    simp only [hget] at hfil
    simpa using hfil.eq_nil
  | some m =>
    simp only [hget] at hfil
    simpa using List.perm_singleton.mp hfil

theorem filter_hitId_eq_nil (l : List PineconeHit) (k : String)
    (hk : k ∉ l.map hitId) : l.filter (fun h => hitId h = k) = [] := by
  apply List.filter_eq_nil_iff.mpr
  intro h hh
  simp only [decide_eq_true_eq]
  intro he
  exact hk (List.mem_map.mpr ⟨h, hh, he⟩)

theorem filter_hitId_singleton (l : List PineconeHit) (a : PineconeHit)
    (hn : (l.map hitId).Nodup) (ha : a ∈ l) :
    l.filter (fun h => hitId h = hitId a) = [a] := by
  induction l with
  | nil => simp at ha
  | cons b t ih =>
    simp only [List.map_cons, List.nodup_cons] at hn
    obtain ⟨hkey, htn⟩ := hn
    by_cases hba : hitId b = hitId a
    · have hab : a = b := by
        rcases List.mem_cons.mp ha with h | h
        · exact h
        · exact absurd (hba ▸ List.mem_map.mpr ⟨a, h, rfl⟩) hkey
      subst hab
      have htail : t.filter (fun h => hitId h = hitId a) = [] :=
        filter_hitId_eq_nil t (hitId a) hkey
      simp [hba, htail]
    · have hat : a ∈ t := by
        rcases List.mem_cons.mp ha with h | h
        · exact absurd (congrArg hitId h.symm) hba
        · exact h
      simp [hba, ih htn hat]

/-- The dedup entry when one id occurs once on each side: the higher-scored
hit wins, dense winning ties. -/
theorem getEntry_merge_both (dense sparse : List PineconeHit)
    (hdn : (dense.map hitId).Nodup) (hsn : (sparse.map hitId).Nodup)
    (hA hB : PineconeHit) (hAmem : hA ∈ dense) (hBmem : hB ∈ sparse)
    (hid : hitId hA = hitId hB) :
    getEntry ((dense ++ sparse).foldl upsertHit []) (hitId hA) =
      some (if hitScore hA < hitScore hB then toMergedHit hB else toMergedHit hA) := by
  rw [getEntry_foldl_upsert]
  have hfd : dense.filter (fun h => hitId h = hitId hA) = [hA] :=
    filter_hitId_singleton dense hA hdn hAmem
  have hfs : sparse.filter (fun h => hitId h = hitId hA) = [hB] := by
    rw [hid]
    exact filter_hitId_singleton sparse hB hsn hBmem
  rw [List.filter_append, hfd, hfs]
  simp only [getEntry, absorbHits, toMergedHit_score]
  by_cases hlt : hitScore hA < hitScore hB <;> simp [hlt, absorbHits]

/-- The dedup entry when an id occurs only on one side of the concatenation:
that hit passes through unchanged. -/
theorem getEntry_merge_single (l : List PineconeHit) (a : PineconeHit)
    (hn : (l.map hitId).Nodup) (ha : a ∈ l) :
    getEntry (l.foldl upsertHit []) (hitId a) = some (toMergedHit a) := by
  rw [getEntry_foldl_upsert, filter_hitId_singleton l a hn ha]
  simp [getEntry, absorbHits]

theorem mem_keys_of_mem (l : List PineconeHit) (h : PineconeHit) (hh : h ∈ l) :
    hitId h ∈ (l.foldl upsertHit []).map Prod.fst := by
  by_contra hnot
  have hnone : getEntry (l.foldl upsertHit []) (hitId h) = none :=
    (getEntry_eq_none_iff _ _).mpr hnot
  rw [getEntry_foldl_upsert] at hnone
  have hmem : h ∈ l.filter (fun x => hitId x = hitId h) :=
    List.mem_filter.mpr ⟨hh, by simp⟩
  cases hf : l.filter (fun x => hitId x = hitId h) with
  | nil => rw [hf] at hmem; simp at hmem
  | cons c t => rw [hf] at hnone; simp [getEntry] at hnone

theorem side_length_le (l side : List PineconeHit)
    (hsub : ∀ h ∈ side, h ∈ l) (hn : (side.map hitId).Nodup) :
    side.length ≤ (l.foldl upsertHit []).length := by
  calc side.length = (side.map hitId).length := by simp
    _ = (side.map hitId).toFinset.card := (List.toFinset_card_of_nodup hn).symm
    _ ≤ ((l.foldl upsertHit []).map Prod.fst).toFinset.card := by
        apply Finset.card_le_card
        intro x hx
        rw [List.mem_toFinset] at hx ⊢
        obtain ⟨h, hh, rfl⟩ := List.mem_map.mp hx
        exact mem_keys_of_mem l h (hsub h hh)
    _ ≤ ((l.foldl upsertHit []).map Prod.fst).length := List.toFinset_card_le _
    _ = (l.foldl upsertHit []).length := by simp

theorem mergeResults_length (dense sparse : List PineconeHit) :
    (mergeResults dense sparse).length =
      ((dense ++ sparse).foldl upsertHit []).length := by
  unfold mergeResults
  rw [(List.perm_insertionSort _ _).length_eq, List.length_map]

/-- C1: for hit sequences A (dense) and B (sparse) with per-sequence unique
ids, `mergeResults(A, B)`: an id in both sides gets the max of the two
scores; an id on only one side passes through unchanged (as the MergedHit
built from that single hit); the output length is at most `|A| + |B|` and at
least `max |A| |B|` minus the overlap; the output is sorted by score
descending. -/
theorem mergeResults_spec (dense sparse : List PineconeHit)
    (hdn : (dense.map hitId).Nodup) (hsn : (sparse.map hitId).Nodup) :
    (∀ hA ∈ dense, ∀ hB ∈ sparse, hitId hA = hitId hB →
       ∃ m, (mergeResults dense sparse).filter (fun x => x._id = hitId hA) = [m] ∧
         m._score = max (hitScore hA) (hitScore hB))
    ∧ (∀ hA ∈ dense, hitId hA ∉ sparse.map hitId →
       (mergeResults dense sparse).filter (fun x => x._id = hitId hA) = [toMergedHit hA])
    ∧ (∀ hB ∈ sparse, hitId hB ∉ dense.map hitId →
       (mergeResults dense sparse).filter (fun x => x._id = hitId hB) = [toMergedHit hB])
    ∧ (mergeResults dense sparse).length ≤ dense.length + sparse.length
    ∧ max dense.length sparse.length
        - ((dense.map hitId).filter (fun k => k ∈ sparse.map hitId)).length
      ≤ (mergeResults dense sparse).length
    ∧ List.Sorted byScoreDesc (mergeResults dense sparse) := by
  refine ⟨?_, ?_, ?_, ?_, ?_, ?_⟩
  · intro hA hAm hB hBm hid
    refine ⟨if hitScore hA < hitScore hB then toMergedHit hB else toMergedHit hA, ?_, ?_⟩
    · rw [mergeResults_filter_id, getEntry_merge_both dense sparse hdn hsn hA hB hAm hBm hid]
    · by_cases hlt : hitScore hA < hitScore hB <;> simp [hlt] <;> omega
  · intro hA hAm hnot
    rw [mergeResults_filter_id]
    have hget : getEntry ((dense ++ sparse).foldl upsertHit []) (hitId hA)
        = some (toMergedHit hA) := by
      rw [getEntry_foldl_upsert, List.filter_append,
        filter_hitId_singleton dense hA hdn hAm, filter_hitId_eq_nil sparse _ hnot]
      simp [getEntry, absorbHits]
    rw [hget]
  · intro hB hBm hnot
    rw [mergeResults_filter_id]
    have hget : getEntry ((dense ++ sparse).foldl upsertHit []) (hitId hB)
        = some (toMergedHit hB) := by
      rw [getEntry_foldl_upsert, List.filter_append,
        filter_hitId_eq_nil dense _ hnot, filter_hitId_singleton sparse hB hsn hBm]
      simp [getEntry, absorbHits]
    rw [hget]
  · rw [mergeResults_length]
    have := length_foldl_upsert_le (dense ++ sparse) []
    simpa using this
  · have h1 : dense.length ≤ ((dense ++ sparse).foldl upsertHit []).length :=
      side_length_le _ dense (fun h hh => List.mem_append_left _ hh) hdn
    have h2 : sparse.length ≤ ((dense ++ sparse).foldl upsertHit []).length :=
      side_length_le _ sparse (fun h hh => List.mem_append_right _ hh) hsn
    rw [mergeResults_length]
    exact le_trans (Nat.sub_le _ _) (Nat.max_le.mpr ⟨h1, h2⟩)
  · exact List.sorted_insertionSort byScoreDesc _

/-- Concrete hits used by witnesses. -/
def denseHitW : PineconeHit :=
  { _id := some "a", _score := some 5,
    fields := some [("chunk_text", .str "alpha"), ("title", .str "T")] }

def denseHitW2 : PineconeHit :=
  { _id := some "b", _score := some 2, fields := some [] }

def sparseHitW : PineconeHit :=
  { _id := some "a", _score := some 3, fields := some [("chunk_text", .str "beta")] }

def sparseHitWTie : PineconeHit :=
  { _id := some "a", _score := some 5, fields := some [("chunk_text", .str "gamma")] }

theorem mergeResults_spec_witness :
    ∃ m, (mergeResults [denseHitW, denseHitW2] [sparseHitW]).filter
        (fun x => x._id = hitId denseHitW) = [m] ∧
      m._score = max (hitScore denseHitW) (hitScore sparseHitW) :=
  (mergeResults_spec [denseHitW, denseHitW2] [sparseHitW] (by decide) (by decide)).1
    denseHitW (by decide) sparseHitW (by decide) (by decide)

/-- C10: when an id occurs on both sides with equal scores, the merged entry
is the dense hit's MergedHit: its chunk_text content and metadata come from
the dense side. -/
theorem mergeResults_dense_tie_precedence (dense sparse : List PineconeHit)
    (hdn : (dense.map hitId).Nodup) (hsn : (sparse.map hitId).Nodup)
    (hA hB : PineconeHit) (hAmem : hA ∈ dense) (hBmem : hB ∈ sparse)
    (hid : hitId hA = hitId hB) (hsc : hitScore hA = hitScore hB) :
    (mergeResults dense sparse).filter (fun m => m._id = hitId hA)
      = [toMergedHit hA] := by
  rw [mergeResults_filter_id, getEntry_merge_both dense sparse hdn hsn hA hB hAmem hBmem hid]
  simp [hsc, lt_irrefl]

theorem mergeResults_dense_tie_precedence_witness :
    (mergeResults [denseHitW] [sparseHitWTie]).filter
        (fun m => m._id = hitId denseHitW) = [toMergedHit denseHitW] :=
  mergeResults_dense_tie_precedence [denseHitW] [sparseHitWTie] (by decide) (by decide)
    denseHitW sparseHitWTie (by decide) (by decide) (by decide) (by decide)

/-! ### The hybrid query pipeline (pinecone-client.ts `query`) -/

/-- Constants from constants.ts. -/
def DEFAULT_TOP_K : Int := 10

def MAX_TOP_K : Int := 100

def COUNT_TOP_K : Nat := 10000

def COUNT_FIELDS : List String := ["document_number", "url", "doc_id"]

def FLOW_CACHE_TTL_MS : Int := 30 * 60 * 1000

/-- `!query || !query.trim()` : true when the query is empty or whitespace. -/
def isBlank (q : String) : Bool := q.toList.all Char.isWhitespace

/-- One element of `rerankResult.data`: score and document may be absent. -/
structure RerankItem where
  score : Option Int
  document : Option MergedHit

/-- The success path of `rerankResults`: map each returned item to a
SearchResult with `reranked: true` (`document['_id'] || ''` etc.). -/
def rerankDataToResults (data : List RerankItem) : List SearchResult :=
  data.map (fun item =>
    let d := item.document.getD { _id := "", _score := 0, chunk_text := "", metadata := [] }
    { id := d._id, content := d.chunk_text, score := item.score.getD 0,
      metadata := d.metadata, reranked := true })

/-- The row built from a merged hit on the non-reranked paths
(`reranked: false`). -/
def mergedToResult (r : MergedHit) : SearchResult :=
  { id := r._id, content := r.chunk_text, score := r._score,
    metadata := r.metadata, reranked := false }

/-- `rerankResults(query, results, topN)` with the backend rerank call
abstracted as an outcome: empty input short-circuits to `[]`; a successful
call maps the returned data; a failed call falls back to the top-`topN`
unreranked results. -/
def rerankResults (rerankOutcome : Except Unit (List RerankItem))
    (results : List MergedHit) (topN : Nat) : List SearchResult :=
  if results.isEmpty then []
  else
    match rerankOutcome with
    | .ok data => rerankDataToResults data
    | .error _ => (results.take topN).map mergedToResult

def isErr {ε α : Type} : Except ε α → Bool
  | .error _ => true
  | .ok _ => false

/-- `query(params)` of pinecone-client.ts with the two concurrent index
searches and the rerank call abstracted as outcomes: validation, topK
clamping, `Promise.allSettled` partial tolerance (a rejected search
contributes `[]`, both rejected raises the combined failure), merge, and
rerank / slice. -/
def query (q : String) (requestedTopK : Option Int) (defaultTopK : Int)
    (useReranking : Bool)
    (denseOutcome sparseOutcome : Except Unit (List PineconeHit))
    (rerankOutcome : Except Unit (List RerankItem)) :
    Except String (List SearchResult) :=
  if isBlank q then .error "Query cannot be empty"
  else
    let topK0 := requestedTopK.getD defaultTopK
    if topK0 < 1 then .error "topK must be at least 1"
    else
      let topK := if topK0 > MAX_TOP_K then MAX_TOP_K else topK0
      let denseHits := match denseOutcome with | .ok v => v | .error _ => []
      let sparseHits := match sparseOutcome with | .ok v => v | .error _ => []
      if isErr denseOutcome && isErr sparseOutcome then
        .error "Hybrid search failed: both dense and sparse index searches failed."
      else
        let merged := mergeResults denseHits sparseHits
        if useReranking then .ok (rerankResults rerankOutcome merged topK.toNat)
        else .ok ((merged.take topK.toNat).map mergedToResult)

/-- C2: with valid inputs, if exactly one of the two concurrent searches
fails the call still succeeds and behaves as if the failed side returned no
hits (only the successful side's hits are merged); if both fail, the call
fails with the combined-failure error. -/
theorem query_partial_failure (q : String) (rtk : Option Int) (dtk : Int) (ur : Bool)
    (d s : Except Unit (List PineconeHit)) (ro : Except Unit (List RerankItem))
    (hq : isBlank q = false) (htk : 1 ≤ rtk.getD dtk) :
    (∀ sh, d = .error () → s = .ok sh →
        query q rtk dtk ur d s ro = query q rtk dtk ur (.ok []) s ro ∧
        ∃ v, query q rtk dtk ur d s ro = .ok v)
    ∧ (∀ dh, d = .ok dh → s = .error () →
        query q rtk dtk ur d s ro = query q rtk dtk ur d (.ok []) ro ∧
        ∃ v, query q rtk dtk ur d s ro = .ok v)
    ∧ (d = .error () → s = .error () →
        query q rtk dtk ur d s ro =
          .error "Hybrid search failed: both dense and sparse index searches failed.") := by
  have hnlt : ¬ rtk.getD dtk < 1 := not_lt.mpr htk
  refine ⟨?_, ?_, ?_⟩
  · rintro sh rfl rfl
    constructor
    · simp only [query, hq, Bool.false_eq_true, if_false, hnlt, isErr, Bool.and_false,
        Bool.false_and]
    · simp only [query, hq, Bool.false_eq_true, if_false, hnlt, isErr, Bool.false_and,
        Bool.and_false]
      cases ur <;> simp
  · rintro dh rfl rfl
    constructor
    · simp only [query, hq, Bool.false_eq_true, if_false, hnlt, isErr, Bool.and_false,
        Bool.false_and]
    · simp only [query, hq, Bool.false_eq_true, if_false, hnlt, isErr, Bool.false_and,
        Bool.and_false]
      cases ur <;> simp
  · rintro rfl rfl
    simp [query, hq, hnlt, isErr]

theorem query_partial_failure_witness :
    (query "alpha" (some 5) 10 false (.error ()) (.ok [sparseHitW]) (.ok [])
      = query "alpha" (some 5) 10 false (.ok []) (.ok [sparseHitW]) (.ok []))
    ∧ ∃ v, query "alpha" (some 5) 10 false (.error ()) (.ok [sparseHitW]) (.ok []) = .ok v :=
  (query_partial_failure "alpha" (some 5) 10 false (.error ()) (.ok [sparseHitW]) (.ok [])
    (by decide) (by decide)).1 [sparseHitW] rfl rfl

/-- Descending order on result-row scores. -/
def resScoreDesc (a b : SearchResult) : Prop := b.score ≤ a.score

@[simp] theorem mergedToResult_score (m : MergedHit) : (mergedToResult m).score = m._score := rfl

@[simp] theorem mergedToResult_reranked (m : MergedHit) :
    (mergedToResult m).reranked = false := rfl

/-- C3: with valid inputs, `useReranking = true` and a non-empty merged hit
list, a failed rerank call still yields a successful response: the
top-`topK` merged hits in their merged (score-descending) order, every row
carrying `reranked = false`. -/
theorem query_rerank_fallback (q : String) (rtk : Option Int) (dtk : Int)
    (dh sh : List PineconeHit)
    (hq : isBlank q = false) (htk : 1 ≤ rtk.getD dtk)
    (hne : mergeResults dh sh ≠ []) :
    ∃ out, query q rtk dtk true (.ok dh) (.ok sh) (.error ()) = .ok out ∧
      out = ((mergeResults dh sh).take
          ((if rtk.getD dtk > MAX_TOP_K then MAX_TOP_K else rtk.getD dtk).toNat)).map
        mergedToResult ∧
      (∀ r ∈ out, r.reranked = false) ∧
      List.Sorted resScoreDesc out := by
  have hnlt : ¬ rtk.getD dtk < 1 := not_lt.mpr htk
  have hemp : (mergeResults dh sh).isEmpty = false := by
    cases hm : mergeResults dh sh with
    | nil => exact absurd hm hne
    | cons a t => simp [hm, List.isEmpty]
  refine ⟨_, ?_, rfl, ?_, ?_⟩
  · simp only [query, hq, Bool.false_eq_true, if_false, hnlt, isErr, Bool.false_and,
      if_true, rerankResults, hemp]
  · intro r hr
    obtain ⟨m, _, rfl⟩ := List.mem_map.mp hr
    rfl
  · have hsorted : List.Sorted byScoreDesc (mergeResults dh sh) :=
      List.sorted_insertionSort byScoreDesc _
    have htake : List.Sorted byScoreDesc ((mergeResults dh sh).take
        ((if rtk.getD dtk > MAX_TOP_K then MAX_TOP_K else rtk.getD dtk).toNat)) :=
      List.Pairwise.sublist (List.take_sublist _ _) hsorted
    exact List.pairwise_map.mpr htake

theorem query_rerank_fallback_witness :
    ∃ out, query "alpha" (some 5) 10 true (.ok [denseHitW, denseHitW2]) (.ok [sparseHitW])
        (.error ()) = .ok out ∧
      out = ((mergeResults [denseHitW, denseHitW2] [sparseHitW]).take
          ((if (some (5 : Int)).getD 10 > MAX_TOP_K then MAX_TOP_K
            else (some (5 : Int)).getD 10).toNat)).map mergedToResult ∧
      (∀ r ∈ out, r.reranked = false) ∧
      List.Sorted resScoreDesc out :=
  query_rerank_fallback "alpha" (some 5) 10 [denseHitW, denseHitW2] [sparseHitW]
    (by decide) (by decide) (by decide)

/-! ### count() (pinecone-client.ts) -/

def fieldLookup : List (String × MetaValue) → String → Option MetaValue
  | [], _ => none
  | (k', v) :: t, k => if k' = k then some v else fieldLookup t k

/-- `typeof fields[k] === 'string' ? fields[k] : undefined`. -/
def strField (fields : List (String × MetaValue)) (k : String) : Option String :=
  match fieldLookup fields k with
  | some (.str s) => some s
  | _ => none

/-- The per-hit key of the `count()` dedup loop, as written in the source:
document_number, else url, else doc_id (each only when string-typed),
else `hit._id ?? ''`. -/
def countKeyCode (h : PineconeHit) : String :=
  let fields := h.fields.getD []
  match strField fields "document_number" with
  | some s => s
  | none =>
    match strField fields "url" with
    | some s => s
    | none =>
      match strField fields "doc_id" with
      | some s => s
      | none => h._id.getD ""

/-- The claim's key function, stated over the COUNT_FIELDS priority list:
the first present string field, falling back to the raw hit id. -/
def specDocKey (h : PineconeHit) : String :=
  match (COUNT_FIELDS.filterMap (strField (h.fields.getD []))).head? with
  | some s => s
  | none => h._id.getD ""

theorem countKeyCode_eq_specDocKey (h : PineconeHit) : countKeyCode h = specDocKey h := by
  unfold countKeyCode specDocKey COUNT_FIELDS
  cases h1 : strField (h.fields.getD []) "document_number" <;>
    cases h2 : strField (h.fields.getD []) "url" <;>
      cases h3 : strField (h.fields.getD []) "doc_id" <;>
        simp [h1, h2, h3]

structure CountResult where
  count : Nat
  truncated : Bool
deriving DecidableEq

/-- `count(params)` of pinecone-client.ts with the dense-index search
abstracted as the list of hits it returned: validate the query, deduplicate
hits into a key set, and report truncation at the COUNT_TOP_K ceiling. -/
def count (q : String) (hits : List PineconeHit) : Except String CountResult :=
  if isBlank q then .error "Query cannot be empty"
  else
    let docKeys := (hits.map countKeyCode).foldl (fun s k => insert k s) (∅ : Finset String)
    .ok { count := docKeys.card, truncated := decide (hits.length ≥ COUNT_TOP_K) }

theorem foldl_insert_eq_toFinset (l : List String) (s : Finset String) :
    l.foldl (fun acc k => insert k acc) s = s ∪ l.toFinset := by
  induction l generalizing s with
  | nil => simp
  | cons a t ih =>
    rw [List.foldl_cons, ih, List.toFinset_cons, Finset.union_insert, Finset.insert_union]

/-- C4: for a non-blank query, `count` returns the cardinality of the set
of per-hit keys (first string field among document_number, url, doc_id,
else the raw hit id), and `truncated` is true exactly when the number of
raw hits reached the 10000 ceiling. -/
theorem count_spec (q : String) (hits : List PineconeHit) (hq : isBlank q = false) :
    count q hits = .ok
      { count := ((hits.map specDocKey).toFinset).card,
        truncated := decide (hits.length ≥ 10000) } := by
  have hkeys : hits.map countKeyCode = hits.map specDocKey :=
    List.map_congr_left (fun h _ => countKeyCode_eq_specDocKey h)
  simp only [count, hq, Bool.false_eq_true, if_false, hkeys,
    foldl_insert_eq_toFinset, Finset.empty_union, COUNT_TOP_K]

theorem count_spec_witness :
    count "alpha" [denseHitW, denseHitW2, sparseHitW] = .ok
      { count := (([denseHitW, denseHitW2, sparseHitW].map specDocKey).toFinset).card,
        truncated := decide (([denseHitW, denseHitW2, sparseHitW] :
          List PineconeHit).length ≥ 10000) } :=
  count_spec "alpha" [denseHitW, denseHitW2, sparseHitW] (by decide)

/-! ### Suggestion flow gate (server/suggestion-flow.ts) -/

/-- Stored flow state for one namespace (`FlowState` in suggestion-flow.ts). -/
structure FlowState where
  updatedAt : Int
  recommended_tool : String
  suggested_fields : List String
  user_query : String
deriving DecidableEq

/-- The process-wide `stateByNamespace` map. -/
def FlowStore := String → Option FlowState

def emptyFlowStore : FlowStore := fun _ => none

/-- `markSuggested(namespace, state)` executed when `Date.now()` is `now`:
unconditionally overwrite the entry with a fresh timestamp. -/
def markSuggested (store : FlowStore) (ns tool : String)
    (fields : List String) (uq : String) (now : Int) : FlowStore :=
  fun k =>
    if k = ns then
      some { updatedAt := now, recommended_tool := tool,
             suggested_fields := fields, user_query := uq }
    else store k

inductive RequireResult where
  | ok (flow : FlowState)
  | fail (message : String)
deriving DecidableEq

def noEntryMessage : String :=
  "Flow requires suggest_query_params first. Call suggest_query_params with namespace and user_query before query/count tools."

def expiredMessage : String :=
  "Previous suggest_query_params context expired (30 minutes). Call suggest_query_params again before query/count tools."

/-- `requireSuggested(namespace)` executed when `Date.now()` is `now`:
returns the result together with the possibly-updated store (the entry is
deleted on the expired path). -/
def requireSuggested (store : FlowStore) (ns : String) (now : Int) :
    RequireResult × FlowStore :=
  match store ns with
  | none => (.fail noEntryMessage, store)
  | some st =>
    if now - st.updatedAt > FLOW_CACHE_TTL_MS then
      (.fail expiredMessage, fun k => if k = ns then none else store k)
    else (.ok st, store)

/-- A recorded call against the flow gate with the `Date.now()` it observed. -/
inductive FlowOp where
  | mark (ns tool : String) (fields : List String) (uq : String) (t : Int)
  | require (ns : String) (t : Int)

def FlowOp.time : FlowOp → Int
  | .mark _ _ _ _ t => t
  | .require _ t => t

def FlowOp.isMarkOf (ns : String) : FlowOp → Bool
  | .mark ns' _ _ _ _ => ns' = ns
  | .require _ _ => false

def stepFlow (store : FlowStore) : FlowOp → FlowStore
  | .mark ns tool fields uq t => markSuggested store ns tool fields uq t
  | .require ns t => (requireSuggested store ns t).2

/-- The store after a whole history of calls, starting from the fresh map. -/
def runFlow (l : List FlowOp) : FlowStore := l.foldl stepFlow emptyFlowStore

theorem stepFlow_ns_of_not_mark (store : FlowStore) (op : FlowOp) (ns : String)
    (hmark : op.isMarkOf ns = false) :
    stepFlow store op ns = store ns ∨ stepFlow store op ns = none := by
  cases op with
  | mark ns' tool fields uq t =>
    simp only [FlowOp.isMarkOf, decide_eq_false_iff_not] at hmark
    left
    simp [stepFlow, markSuggested, Ne.symm hmark]
  | require ns' t =>
    simp only [stepFlow, requireSuggested]
    cases hst : store ns' with
    | none => left; rfl
    | some st =>
      by_cases hexp : t - st.updatedAt > FLOW_CACHE_TTL_MS
      · by_cases hns : ns = ns'
        · subst hns
          right
          simp [hexp]
        · left
          simp [hexp, hns]
      · left
        simp [hexp]

theorem runFrom_none (l : List FlowOp) (store : FlowStore) (ns : String)
    (hstore : store ns = none) (hl : ∀ op ∈ l, op.isMarkOf ns = false) :
    (l.foldl stepFlow store) ns = none := by
  induction l generalizing store with
  | nil => exact hstore
  | cons op t ih =>
    rcases stepFlow_ns_of_not_mark store op ns (hl op (by simp)) with h | h
    · exact ih (stepFlow store op) (h.trans hstore) (fun o ho => hl o (by simp [ho]))
    · exact ih (stepFlow store op) h (fun o ho => hl o (by simp [ho]))

theorem runFrom_preserved (l : List FlowOp) (store : FlowStore) (ns : String) (st : FlowState)
    (now : Int) (hstore : store ns = some st)
    (hl : ∀ op ∈ l, op.isMarkOf ns = false)
    (htimes : ∀ op ∈ l, op.time ≤ now)
    (hfresh : now - st.updatedAt ≤ FLOW_CACHE_TTL_MS) :
    (l.foldl stepFlow store) ns = some st := by
  induction l generalizing store with
  | nil => exact hstore
  | cons op t ih =>
    have hstep : stepFlow store op ns = some st := by
      cases op with
      | mark ns' tool fields uq t' =>
        have hmark := hl _ (List.mem_cons_self _ _)
        simp only [FlowOp.isMarkOf, decide_eq_false_iff_not] at hmark
        simp [stepFlow, markSuggested, Ne.symm hmark, hstore]
      | require ns' t' =>
        by_cases hns : ns' = ns
        · subst hns
          have ht' : t' ≤ now := by simpa [FlowOp.time] using htimes _ (List.mem_cons_self _ _)
          have hnot : ¬ t' - st.updatedAt > FLOW_CACHE_TTL_MS := by omega
          simp [stepFlow, requireSuggested, hstore, hnot]
        · simp only [stepFlow, requireSuggested]
          cases hst' : store ns' with
          | none => exact hstore
          | some st' =>
            by_cases hexp : t' - st'.updatedAt > FLOW_CACHE_TTL_MS
            · simp [hexp, Ne.symm hns, hstore]
            · simp [hexp, hstore]
    exact ih (stepFlow store op) hstep (fun o ho => hl o (by simp [ho]))
      (fun o ho => htimes o (by simp [ho]))

theorem runFrom_entry_cases (l : List FlowOp) (store : FlowStore) (ns : String) (st : FlowState)
    (hstore : store ns = some st) (hl : ∀ op ∈ l, op.isMarkOf ns = false) :
    (l.foldl stepFlow store) ns = some st ∨ (l.foldl stepFlow store) ns = none := by
  induction l generalizing store with
  | nil => exact Or.inl hstore
  | cons op t ih =>
    rcases stepFlow_ns_of_not_mark store op ns (hl op (by simp)) with h | h
    · exact ih (stepFlow store op) (h.trans hstore) (fun o ho => hl o (by simp [ho]))
    · exact Or.inr (runFrom_none t (stepFlow store op) ns h (fun o ho => hl o (by simp [ho])))

/-- C5: against any call history: (1) if no `markSuggested` for `ns` ever
ran, `requireSuggested` fails and leaves the store unchanged; (2) if the
most recent `markSuggested` for `ns` ran at time `t` and at most the TTL
has elapsed (all later calls included), `requireSuggested` succeeds with
the stored state; (3) once more than the TTL has elapsed, it fails, the
entry for `ns` is gone afterwards, and any subsequent `requireSuggested`
fails with the missing-entry message. -/
theorem requireSuggested_spec (l : List FlowOp) (ns : String) (now : Int) :
    ((∀ op ∈ l, op.isMarkOf ns = false) →
       requireSuggested (runFlow l) ns now = (.fail noEntryMessage, runFlow l))
    ∧ (∀ l₁ tool fields uq t l₂, l = l₁ ++ FlowOp.mark ns tool fields uq t :: l₂ →
        (∀ op ∈ l₂, op.isMarkOf ns = false) →
        (∀ op ∈ l₂, op.time ≤ now) →
        now - t ≤ FLOW_CACHE_TTL_MS →
        requireSuggested (runFlow l) ns now =
          (.ok { updatedAt := t, recommended_tool := tool, suggested_fields := fields,
                 user_query := uq }, runFlow l))
    ∧ (∀ l₁ tool fields uq t l₂, l = l₁ ++ FlowOp.mark ns tool fields uq t :: l₂ →
        (∀ op ∈ l₂, op.isMarkOf ns = false) →
        now - t > FLOW_CACHE_TTL_MS →
        ∃ msg, (requireSuggested (runFlow l) ns now).1 = .fail msg ∧
          ((requireSuggested (runFlow l) ns now).2) ns = none ∧
          ∀ now', (requireSuggested ((requireSuggested (runFlow l) ns now).2) ns now').1
            = .fail noEntryMessage) := by
  refine ⟨?_, ?_, ?_⟩
  · intro hl
    have hnone : (runFlow l) ns = none := runFrom_none l emptyFlowStore ns rfl hl
    simp [requireSuggested, hnone]
  · intro l₁ tool fields uq t l₂ hdecomp hl₂ htimes hfresh
    subst hdecomp
    have hrun : runFlow (l₁ ++ FlowOp.mark ns tool fields uq t :: l₂) =
        l₂.foldl stepFlow (stepFlow (runFlow l₁) (FlowOp.mark ns tool fields uq t)) := by
      simp [runFlow, List.foldl_append]
    have hmarked : (stepFlow (runFlow l₁) (FlowOp.mark ns tool fields uq t)) ns =
        some { updatedAt := t, recommended_tool := tool, suggested_fields := fields,
               user_query := uq } := by
      simp [stepFlow, markSuggested]
    have hentry := runFrom_preserved l₂ _ ns _ now hmarked hl₂ htimes (by simpa using hfresh)
    rw [hrun]
    have hnexp : ¬ now - t > FLOW_CACHE_TTL_MS := by omega
    simp [requireSuggested, hentry, hnexp]
  · intro l₁ tool fields uq t l₂ hdecomp hl₂ hexp
    subst hdecomp
    have hrun : runFlow (l₁ ++ FlowOp.mark ns tool fields uq t :: l₂) =
        l₂.foldl stepFlow (stepFlow (runFlow l₁) (FlowOp.mark ns tool fields uq t)) := by
      simp [runFlow, List.foldl_append]
    have hmarked : (stepFlow (runFlow l₁) (FlowOp.mark ns tool fields uq t)) ns =
        some { updatedAt := t, recommended_tool := tool, suggested_fields := fields,
               user_query := uq } := by
      simp [stepFlow, markSuggested]
    rw [hrun]
    rcases runFrom_entry_cases l₂ _ ns _ hmarked hl₂ with hentry | hentry
    · have hgt : now -
          (FlowState.mk t tool fields uq).updatedAt > FLOW_CACHE_TTL_MS := by
        simpa using hexp
      refine ⟨expiredMessage, ?_, ?_, ?_⟩
      · simp [requireSuggested, hentry, hgt]
      · simp [requireSuggested, hentry, hgt]
      · intro now'
        simp [requireSuggested, hentry, hgt]
    · refine ⟨noEntryMessage, ?_, ?_, ?_⟩
      · simp [requireSuggested, hentry]
      · simp [requireSuggested, hentry]
      · intro now'
        simp [requireSuggested, hentry]

theorem requireSuggested_spec_witness :
    requireSuggested (runFlow [FlowOp.mark "docs" "count" [] "q" 0]) "docs" 100 =
      (.ok { updatedAt := 0, recommended_tool := "count", suggested_fields := [],
             user_query := "q" }, runFlow [FlowOp.mark "docs" "count" [] "q" 0]) :=
  (requireSuggested_spec [FlowOp.mark "docs" "count" [] "q" 0] "docs" 100).2.1
    [] "count" [] "q" 0 [] rfl (by simp) (by simp) (by decide)

/-! ### Namespace router (server/namespace-router.ts, generalized scorer) -/

/-- `NamespaceInfo` of namespaces-cache.ts: metadata maps field name to an
inferred type tag. -/
structure NamespaceInfo where
  «namespace» : String
  recordCount : Int
  metadata : List (String × String)
deriving DecidableEq

structure RankedNamespace where
  «namespace» : String
  score : Int
  record_count : Int
  reasons : List String
deriving DecidableEq

/-- JS `toLowerCase()`, per character. -/
def lowerChars (s : String) : List Char := s.toList.map Char.toLower

/-- The regex replace `[^a-z0-9]` → `' '` on an already-lowercased name. -/
def normReplace (l : List Char) : List Char :=
  l.map (fun c => if (('a' ≤ c && c ≤ 'z') || ('0' ≤ c && c ≤ '9')) then c else ' ')

/-- JS `.trim()` on a character list. -/
def trimChars (l : List Char) : List Char :=
  ((l.dropWhile Char.isWhitespace).reverse.dropWhile Char.isWhitespace).reverse

def startsWithChars : List Char → List Char → Bool
  | _, [] => true
  | [], _ :: _ => false
  | a :: as, b :: bs => a = b && startsWithChars as bs

/-- JS `hay.includes(needle)` on character lists. -/
def containsChars (hay needle : List Char) : Bool :=
  match hay with
  | [] => startsWithChars [] needle
  | c :: t => startsWithChars (c :: t) needle || containsChars t needle

/-- `split(/\s+/).filter(Boolean)` on a list whose only whitespace is `' '`. -/
def splitTokens (l : List Char) : List (List Char) :=
  (l.splitOnP (fun c => c = ' ')).filter (fun t => !t.isEmpty)

/-- `scoreNamespace(query, namespace, fields)` of the generalized router:
+3 when the query contains the normalized (non-empty) name verbatim, else
+2 per name token of length ≥ 2 contained in the query; +1 per metadata
field name contained in the query; reasons deduplicated keeping first
occurrences. -/
def scoreNamespace (queryText ns : String) (fields : List String) :
    Int × List String :=
  let q := lowerChars queryText
  let name := lowerChars ns
  let normalizedName := trimChars (normReplace name)
  let base :=
    if !normalizedName.isEmpty && containsChars q normalizedName then
      ((3 : Int), ["query mentions namespace name"])
    else
      (splitTokens normalizedName).foldl
        (fun (acc : Int × List String) token =>
          if decide (2 ≤ token.length) && containsChars q token then
            (acc.1 + 2, acc.2 ++ ["query matches namespace token: " ++ String.mk token])
          else acc)
        (0, [])
  let full := fields.foldl
    (fun (acc : Int × List String) field =>
      if containsChars q (lowerChars field) then
        (acc.1 + 1, acc.2 ++ ["field hint: " ++ field])
      else acc)
    base
  (full.1, full.2.dedup)

/-- The ordering of the sort comparator: higher score first, ties broken by
smaller record count. -/
def rleRank (a b : RankedNamespace) : Prop :=
  b.score < a.score ∨ (a.score = b.score ∧ a.record_count ≤ b.record_count)

instance : DecidableRel rleRank := fun a b =>
  inferInstanceAs (Decidable (b.score < a.score ∨
    (a.score = b.score ∧ a.record_count ≤ b.record_count)))

instance : IsTotal RankedNamespace rleRank :=
  ⟨fun a b => by unfold rleRank; omega⟩

instance : IsTrans RankedNamespace rleRank :=
  ⟨fun a b c hab hbc => by unfold rleRank at *; omega⟩

/-- `rankNamespacesByQuery(query, namespaces, topN)`: score each namespace
on the trimmed query, sort descending (record count ascending on ties),
truncate to `topN`. -/
def rankNamespacesByQuery (queryText : String) (namespaces : List NamespaceInfo)
    (topN : Nat) : List RankedNamespace :=
  let trimmed := String.mk (trimChars queryText.toList)
  (List.insertionSort rleRank (namespaces.map (fun ns =>
    let fields := ns.metadata.map Prod.fst
    let sr := scoreNamespace trimmed ns.«namespace» fields
    { «namespace» := ns.«namespace», score := sr.1,
      record_count := ns.recordCount, reasons := sr.2 }))).take topN

/-- The claim's scoring formula, as arithmetic over match counts. -/
def specScore (queryText ns : String) (fields : List String) : Int :=
  let q := lowerChars queryText
  let normalizedName := trimChars (normReplace (lowerChars ns))
  (if !normalizedName.isEmpty && containsChars q normalizedName then 3
   else 2 * ((splitTokens normalizedName).filter
       (fun token => decide (2 ≤ token.length) && containsChars q token)).length)
  + (fields.filter (fun f => containsChars q (lowerChars f))).length

theorem foldl_token_score (tokens : List (List Char)) (q : List Char)
    (init : Int × List String) :
    (tokens.foldl
      (fun (acc : Int × List String) token =>
        if decide (2 ≤ token.length) && containsChars q token then
          (acc.1 + 2, acc.2 ++ ["query matches namespace token: " ++ String.mk token])
        else acc)
      init).1 =
      init.1 + 2 * (tokens.filter
        (fun token => decide (2 ≤ token.length) && containsChars q token)).length := by
  induction tokens generalizing init with
  | nil => simp
  | cons tok t ih =>
    by_cases hc : (decide (2 ≤ tok.length) && containsChars q tok) = true
    · simp only [List.foldl_cons, hc, if_true, List.filter_cons, ih]
      simp
      omega
    · simp only [List.foldl_cons, hc, if_false, List.filter_cons, ih]
      simp [hc]

theorem foldl_field_score (fields : List String) (q : List Char)
    (init : Int × List String) :
    (fields.foldl
      (fun (acc : Int × List String) field =>
        if containsChars q (lowerChars field) then
          (acc.1 + 1, acc.2 ++ ["field hint: " ++ field])
        else acc)
      init).1 =
      init.1 + (fields.filter (fun f => containsChars q (lowerChars f))).length := by
  induction fields generalizing init with
  | nil => simp
  | cons f t ih =>
    by_cases hc : containsChars q (lowerChars f) = true
    · simp only [List.foldl_cons, hc, if_true, List.filter_cons, ih]
      simp
      omega
    · simp only [List.foldl_cons, hc, if_false, List.filter_cons, ih]
      simp [hc]

theorem scoreNamespace_eq_specScore (queryText ns : String) (fields : List String) :
    (scoreNamespace queryText ns fields).1 = specScore queryText ns fields := by
  unfold scoreNamespace specScore
  cases hname : (!(trimChars (normReplace (lowerChars ns))).isEmpty
      && containsChars (lowerChars queryText) (trimChars (normReplace (lowerChars ns)))) with
  | true =>
    simp only [hname, if_true, foldl_field_score]
    push_cast
    ring
  | false =>
    simp only [hname, Bool.false_eq_true, if_false, foldl_field_score, foldl_token_score]
    push_cast
    ring

/-- The ranked entry with the claim's score formula in place of the
source's accumulating loop. -/
def specRankedEntry (trimmedQuery : String) (ns : NamespaceInfo) : RankedNamespace :=
  let fields := ns.metadata.map Prod.fst
  { «namespace» := ns.«namespace»,
    score := specScore trimmedQuery ns.«namespace» fields,
    record_count := ns.recordCount,
    reasons := (scoreNamespace trimmedQuery ns.«namespace» fields).2 }

/-- C6: the router's output is the claim's ranking: each namespace scored
by the claim's formula (+3 verbatim name match, else +2 per length-≥2 name
token in the query, plus +1 per metadata field name in the query), sorted
by score descending with ties broken by ascending record count, truncated
to `topN`. -/
theorem rankNamespacesByQuery_spec (queryText : String) (namespaces : List NamespaceInfo)
    (topN : Nat) :
    rankNamespacesByQuery queryText namespaces topN =
      (List.insertionSort rleRank (namespaces.map
        (specRankedEntry (String.mk (trimChars queryText.toList))))).take topN
    ∧ List.Sorted rleRank (rankNamespacesByQuery queryText namespaces topN)
    ∧ (rankNamespacesByQuery queryText namespaces topN).length =
        min topN namespaces.length := by
  have hmap : (fun (ns : NamespaceInfo) =>
      let fields := ns.metadata.map Prod.fst
      let sr := scoreNamespace (String.mk (trimChars queryText.toList)) ns.«namespace» fields
      RankedNamespace.mk ns.«namespace» sr.1 ns.recordCount sr.2)
      = specRankedEntry (String.mk (trimChars queryText.toList)) := by
    funext ns
    simp only [specRankedEntry, scoreNamespace_eq_specScore]
  refine ⟨?_, ?_, ?_⟩
  · simp only [rankNamespacesByQuery]
    rw [hmap]
  · simp only [rankNamespacesByQuery]
    exact List.Pairwise.sublist (List.take_sublist _ _)
      (List.sorted_insertionSort rleRank _)
  · simp only [rankNamespacesByQuery]
    rw [List.length_take, (List.perm_insertionSort rleRank _).length_eq, List.length_map]

/-! ### Query suggestion engine (server/namespaces-cache.ts) -/

/-- JS regex `\w` (no unicode flag): `[A-Za-z0-9_]`. -/
def isWordChar (c : Char) : Bool :=
  ('a' ≤ c && c ≤ 'z') || ('A' ≤ c && c ≤ 'Z') || ('0' ≤ c && c ≤ '9') || c = '_'

def nonWordOpt : Option Char → Bool
  | none => true
  | some c => !isWordChar c

def dropPref : List Char → List Char → Option (List Char)
  | [], q => some q
  | _ :: _, [] => none
  | a :: as, b :: bs => if a = b then dropPref as bs else none

/-- `alt` occurs at the current position of `q` with `\b` on both sides:
the previous character (if any) and the character after the occurrence
(if any) are non-word. -/
def boundedAt (prev : Option Char) (q alt : List Char) : Bool :=
  nonWordOpt prev &&
    match dropPref alt q with
    | some rest => nonWordOpt rest.head?
    | none => false

def boundedOccurs (prev : Option Char) (q alt : List Char) : Bool :=
  boundedAt prev q alt ||
    match q with
    | [] => false
    | c :: t => boundedOccurs (some c) t alt

/-- `\b(alt1|alt2|...)\b.test(q)` for an alternation of word-char phrases. -/
def testWordAlts (alts : List (List Char)) (q : List Char) : Bool :=
  alts.any (fun alt => boundedOccurs none q alt)

/-- The count-intent regex
`\b(how many|count|number of|total number|paper count|documents? count)\b`
(`documents?` listed as its two expansions). -/
def countIntentAlts : List (List Char) :=
  ["how many".toList, "count".toList, "number of".toList, "total number".toList,
   "paper count".toList, "document count".toList, "documents count".toList]

/-- The content-intent regex
`\b(content|summarize|summarise|what does|excerpt|text|say|details?|full text|body)\b`. -/
def contentIntentAlts : List (List Char) :=
  ["content".toList, "summarize".toList, "summarise".toList, "what does".toList,
   "excerpt".toList, "text".toList, "say".toList, "detail".toList, "details".toList,
   "full text".toList, "body".toList]

def countIntent (q : List Char) : Bool := testWordAlts countIntentAlts q

def contentIntent (q : List Char) : Bool := testWordAlts contentIntentAlts q

/-- `userQuery.toLowerCase().trim()`. -/
def normalizeQuery (userQuery : String) : List Char :=
  trimChars (lowerChars userQuery)

structure SuggestQueryParamsResult where
  suggested_fields : List String
  use_count_tool : Bool
  recommended_tool : String
  explanation : String
  namespace_found : Bool
deriving DecidableEq

/-- `suggestQueryParams(namespaceMetadataFields, userQuery)` of
namespaces-cache.ts: null schema, then empty schema, then count intent,
then content intent, then the list/browse default, in that order. -/
def suggestQueryParams (namespaceMetadataFields : Option (List (String × String)))
    (userQuery : String) : SuggestQueryParamsResult :=
  let q := normalizeQuery userQuery
  let available := match namespaceMetadataFields with
    | some m => m.map Prod.fst
    | none => []
  let keepOnlyAvailable := fun (fields : List String) =>
    fields.filter (fun f => available.contains f)
  match namespaceMetadataFields with
  | none =>
    { suggested_fields := [], use_count_tool := false, recommended_tool := "query_fast",
      explanation := "Namespace not found or has no metadata fields. Call list_namespaces first, then pass a valid namespace.",
      namespace_found := false }
  | some _ =>
    if available.isEmpty then
      { suggested_fields := [], use_count_tool := false, recommended_tool := "query_fast",
        explanation := "Namespace has no metadata fields. Use list_namespaces to verify the namespace is correct.",
        namespace_found := true }
    else if countIntent q then
      let fields := keepOnlyAvailable COUNT_FIELDS
      { suggested_fields := if !fields.isEmpty then fields else available.take 5,
        use_count_tool := true, recommended_tool := "count",
        explanation := "User asked for a count. Use the count tool for this. If using query instead, use minimal fields (no chunk_text).",
        namespace_found := true }
    else if contentIntent q then
      let fields := keepOnlyAvailable ["document_number", "title", "url", "author", "chunk_text"]
      { suggested_fields := if !fields.isEmpty then fields else available,
        use_count_tool := false, recommended_tool := "query_detailed",
        explanation := "User asked for content or details; include chunk_text for snippets.",
        namespace_found := true }
    else
      let listFields := keepOnlyAvailable ["document_number", "title", "url", "author"]
      { suggested_fields := if !listFields.isEmpty then listFields else available.take 5,
        use_count_tool := false, recommended_tool := "query_fast",
        explanation := "User asked for a list or browse; use minimal fields (no chunk_text) for smaller payload and cost.",
        namespace_found := true }

/-- C7 counterexample: a non-null schema with zero fields and a
count-intent query yields `use_count_tool = false` although the query
matches the count-intent patterns — the claim as stated fails for the
empty (but non-null) schema. -/
theorem suggestQueryParams_counterexample :
    countIntent (normalizeQuery "how many papers are there") = true ∧
    (suggestQueryParams (some []) "how many papers are there").use_count_tool = false := by
  constructor
  · decide
  · decide

theorem mem_of_keepOnlyAvailable (cands A : List String) (f : String)
    (hf : f ∈ cands.filter (fun g => A.contains g)) : f ∈ A := by
  have h : A.contains f = true := List.of_mem_filter hf
  exact List.mem_of_elem_eq_true h

/-- C7 (amended): for a non-null schema with at least one field,
`use_count_tool` is true exactly on count-intent queries; on queries taking
the content branch, `chunk_text` is among the suggested fields whenever it
is in the schema; for every non-null schema, the suggested fields are a
subset of the schema's keys, and when a branch's candidate intersection is
empty the documented fallback is returned (first 5 available fields, or
all fields for content intent). -/
theorem suggestQueryParams_spec (m : List (String × String)) (userQuery : String) :
    (m ≠ [] →
      (suggestQueryParams (some m) userQuery).use_count_tool
        = countIntent (normalizeQuery userQuery))
    ∧ (m ≠ [] →
       countIntent (normalizeQuery userQuery) = false →
       contentIntent (normalizeQuery userQuery) = true →
       "chunk_text" ∈ m.map Prod.fst →
       "chunk_text" ∈ (suggestQueryParams (some m) userQuery).suggested_fields)
    ∧ (∀ f ∈ (suggestQueryParams (some m) userQuery).suggested_fields, f ∈ m.map Prod.fst)
    ∧ (m ≠ [] →
       countIntent (normalizeQuery userQuery) = true →
       COUNT_FIELDS.filter (fun g => (m.map Prod.fst).contains g) = [] →
       (suggestQueryParams (some m) userQuery).suggested_fields = (m.map Prod.fst).take 5)
    ∧ (m ≠ [] →
       countIntent (normalizeQuery userQuery) = false →
       contentIntent (normalizeQuery userQuery) = true →
       (["document_number", "title", "url", "author", "chunk_text"] :
         List String).filter (fun g => (m.map Prod.fst).contains g) = [] →
       (suggestQueryParams (some m) userQuery).suggested_fields = m.map Prod.fst)
    ∧ (m ≠ [] →
       countIntent (normalizeQuery userQuery) = false →
       contentIntent (normalizeQuery userQuery) = false →
       (["document_number", "title", "url", "author"] :
         List String).filter (fun g => (m.map Prod.fst).contains g) = [] →
       (suggestQueryParams (some m) userQuery).suggested_fields = (m.map Prod.fst).take 5) := by
  by_cases hm : m = []
  · subst hm
    refine ⟨fun h => absurd rfl h, fun h => absurd rfl h, ?_,
      fun h => absurd rfl h, fun h => absurd rfl h, fun h => absurd rfl h⟩
    intro f hf
    simp [suggestQueryParams] at hf
  · have hA : (m.map Prod.fst).isEmpty = false := by
      cases m with
      | nil => exact absurd rfl hm
      | cons p t => simp
    refine ⟨?_, ?_, ?_, ?_, ?_, ?_⟩
    · intro _
      cases hcount : countIntent (normalizeQuery userQuery) with
      | true => simp [suggestQueryParams, hA, hcount]
      | false =>
        cases hcontent : contentIntent (normalizeQuery userQuery) with
        | true => simp [suggestQueryParams, hA, hcount, hcontent]
        | false => simp [suggestQueryParams, hA, hcount, hcontent]
    · intro _ hcount hcontent hmem
      have hkeep : "chunk_text" ∈ (["document_number", "title", "url", "author", "chunk_text"] :
          List String).filter (fun g => (m.map Prod.fst).contains g) := by
        apply List.mem_filter.mpr
        exact ⟨by simp, List.elem_eq_true_of_mem hmem⟩
      have hne : ((["document_number", "title", "url", "author", "chunk_text"] :
          List String).filter (fun g => (m.map Prod.fst).contains g)).isEmpty = false := by
        cases hfil : (["document_number", "title", "url", "author", "chunk_text"] :
            List String).filter (fun g => (m.map Prod.fst).contains g) with
        | nil => rw [hfil] at hkeep; simp at hkeep
        | cons a t => simp
      simp only [suggestQueryParams, hA, Bool.false_eq_true, if_false, hcount, hcontent,
        if_true, COUNT_FIELDS, hne, Bool.not_false]
      exact hkeep
    · intro f hf
      by_cases hcount : countIntent (normalizeQuery userQuery) = true
      · simp only [suggestQueryParams, hA, Bool.false_eq_true, if_false, hcount, if_true,
          COUNT_FIELDS] at hf
        by_cases hfil : ((["document_number", "url", "doc_id"] :
            List String).filter (fun g => (m.map Prod.fst).contains g)).isEmpty
        · rw [hfil] at hf
          simp only [Bool.not_true, Bool.false_eq_true, if_false] at hf
          exact List.mem_of_mem_take hf
        · rw [Bool.not_eq_true] at hfil
          rw [hfil] at hf
          simp only [Bool.not_false, if_true] at hf
          exact mem_of_keepOnlyAvailable _ _ f hf
      · rw [Bool.not_eq_true] at hcount
        by_cases hcontent : contentIntent (normalizeQuery userQuery) = true
        · simp only [suggestQueryParams, hA, Bool.false_eq_true, if_false, hcount, hcontent,
            if_true] at hf
          by_cases hfil : ((["document_number", "title", "url", "author", "chunk_text"] :
              List String).filter (fun g => (m.map Prod.fst).contains g)).isEmpty
          · rw [hfil] at hf
            simp only [Bool.not_true, Bool.false_eq_true, if_false] at hf
            exact hf
          · rw [Bool.not_eq_true] at hfil
            rw [hfil] at hf
            simp only [Bool.not_false, if_true] at hf
            exact mem_of_keepOnlyAvailable _ _ f hf
        · rw [Bool.not_eq_true] at hcontent
          simp only [suggestQueryParams, hA, Bool.false_eq_true, if_false, hcount, hcontent] at hf
          by_cases hfil : ((["document_number", "title", "url", "author"] :
              List String).filter (fun g => (m.map Prod.fst).contains g)).isEmpty
          · rw [hfil] at hf
            simp only [Bool.not_true, Bool.false_eq_true, if_false] at hf
            exact List.mem_of_mem_take hf
          · rw [Bool.not_eq_true] at hfil
            rw [hfil] at hf
            simp only [Bool.not_false, if_true] at hf
            exact mem_of_keepOnlyAvailable _ _ f hf
    · intro _ hcount hfil
      simp only [COUNT_FIELDS] at hfil
      simp only [suggestQueryParams, hA, Bool.false_eq_true, if_false, hcount, if_true,
        COUNT_FIELDS, hfil, List.isEmpty_nil, Bool.not_true]
    · intro _ hcount hcontent hfil
      simp only [suggestQueryParams, hA, Bool.false_eq_true, if_false, hcount, hcontent,
        if_true, hfil, List.isEmpty_nil, Bool.not_true]
    · intro _ hcount hcontent hfil
      simp only [suggestQueryParams, hA, Bool.false_eq_true, if_false, hcount, hcontent,
        hfil, List.isEmpty_nil, Bool.not_true]

theorem suggestQueryParams_spec_witness :
    (suggestQueryParams (some [("document_number", "string")]) "how many papers").use_count_tool
      = countIntent (normalizeQuery "how many papers") :=
  (suggestQueryParams_spec [("document_number", "string")] "how many papers").1 (by decide)

/-! ### Metadata filter validator (validateMetadataFilter) -/

mutual
/-- A JSON-ish filter value: null/undefined, primitive, array, or nested
mapping (entries in insertion order). -/
inductive FilterValue where
  | nullv
  | str (s : String)
  | num (n : Int)
  | boolv (b : Bool)
  | arr (xs : FilterList)
  | obj (kvs : FilterEntries)

inductive FilterList where
  | nil
  | cons (v : FilterValue) (rest : FilterList)

inductive FilterEntries where
  | nil
  | cons (k : String) (v : FilterValue) (rest : FilterEntries)
end

def ALLOWED_FILTER_OPERATORS : List String :=
  ["$eq", "$ne", "$gt", "$gte", "$lt", "$lte", "$in", "$nin"]

/-- `key.startsWith('$')`. -/
def startsWithDollar (k : String) : Bool :=
  match k.toList with
  | [] => false
  | c :: _ => c = '$'

def isPrimitiveFilterValue : FilterValue → Bool
  | .str _ => true
  | .num _ => true
  | .boolv _ => true
  | _ => false

def isPrimitiveList : FilterList → Bool
  | .nil => true
  | .cons v rest => isPrimitiveFilterValue v && isPrimitiveList rest

/-- `isPrimitiveArray(value)`. -/
def isPrimitiveArray : FilterValue → Bool
  | .arr xs => isPrimitiveList xs
  | _ => false

def nullMsg (path : List String) : String :=
  "Invalid null/undefined at \"" ++ String.intercalate "." path ++ "\"."

def unsupportedValueMsg (path : List String) : String :=
  "Unsupported filter value at \"" ++ String.intercalate "." path ++ "\"."

def unsupportedOpMsg (key : String) (path : List String) : String :=
  "Unsupported filter operator \"" ++ key ++ "\" at \"" ++
    String.intercalate "." path ++ "\"."

def inNinMsg (key : String) (path : List String) : String :=
  "Operator \"" ++ key ++ "\" at \"" ++ String.intercalate "." path ++
    "\" must use an array of primitive values."

mutual
/-- `validateMetadataFilterValue(value, path)`: null fails; primitives and
primitive arrays pass; other arrays fail; mappings are walked entry by
entry, returning the first error. -/
def validateMetadataFilterValue : FilterValue → List String → Option String
  | .nullv, path => some (nullMsg path)
  | .str _, _ => none
  | .num _, _ => none
  | .boolv _, _ => none
  | .arr xs, path =>
    if isPrimitiveList xs then none else some (unsupportedValueMsg path)
  | .obj kvs, path => validateEntries kvs path

/-- The entry loop: a `$`-key outside the allowed operators fails naming the
key; `$in`/`$nin` with a non-primitive-array value fails with the
array-of-primitives message; otherwise the value is validated recursively
and the loop continues. -/
def validateEntries : FilterEntries → List String → Option String
  | .nil, _ => none
  | .cons k v rest, path =>
    if startsWithDollar k && !(ALLOWED_FILTER_OPERATORS.contains k) then
      some (unsupportedOpMsg k path)
    else if startsWithDollar k && (k == "$in" || k == "$nin") && !isPrimitiveArray v then
      some (inNinMsg k path)
    else
      match validateMetadataFilterValue v (path ++ [k]) with
      | some err => some err
      | none => validateEntries rest path
end

/-- `validateMetadataFilter(filter)`: validate each top-level value with the
field name as path root. Top-level keys themselves are never inspected. -/
def validateMetadataFilter : FilterEntries → Option String
  | .nil => none
  | .cons field v rest =>
    match validateMetadataFilterValue v [field] with
    | some err => some err
    | none => validateMetadataFilter rest

mutual
/-- The claim's well-formedness of a value: primitive, primitive array, or
nested mapping whose `$`-keys are allowed operators with `$in`/`$nin`
holding primitive arrays, recursively. -/
def wfValue : FilterValue → Bool
  | .nullv => false
  | .str _ => true
  | .num _ => true
  | .boolv _ => true
  | .arr xs => isPrimitiveList xs
  | .obj kvs => wfEntries kvs

def wfEntries : FilterEntries → Bool
  | .nil => true
  | .cons k v rest =>
    (!(startsWithDollar k) ||
      (ALLOWED_FILTER_OPERATORS.contains k &&
        (!(k == "$in" || k == "$nin") || isPrimitiveArray v))) &&
    wfValue v && wfEntries rest
end

mutual
/-- A `$`-key outside the allowed operator set occurs somewhere below. -/
def hasBadKeyV : FilterValue → Bool
  | .arr xs => hasBadKeyL xs
  | .obj kvs => hasBadKeyE kvs
  | _ => false

def hasBadKeyL : FilterList → Bool
  | .nil => false
  | .cons v rest => hasBadKeyV v || hasBadKeyL rest

def hasBadKeyE : FilterEntries → Bool
  | .nil => false
  | .cons k v rest =>
    (startsWithDollar k && !(ALLOWED_FILTER_OPERATORS.contains k)) ||
      hasBadKeyV v || hasBadKeyE rest
end

mutual
/-- A `$in`/`$nin` whose value is not a primitive array occurs somewhere. -/
def hasInNinMisuseV : FilterValue → Bool
  | .arr xs => hasInNinMisuseL xs
  | .obj kvs => hasInNinMisuseE kvs
  | _ => false

def hasInNinMisuseL : FilterList → Bool
  | .nil => false
  | .cons v rest => hasInNinMisuseV v || hasInNinMisuseL rest

def hasInNinMisuseE : FilterEntries → Bool
  | .nil => false
  | .cons k v rest =>
    ((k == "$in" || k == "$nin") && !isPrimitiveArray v) ||
      hasInNinMisuseV v || hasInNinMisuseE rest
end

mutual
theorem wfValue_validate_none (v : FilterValue) (path : List String)
    (h : wfValue v = true) : validateMetadataFilterValue v path = none := by
  cases v with
  | nullv => simp [wfValue] at h
  | str s => rfl
  | num n => rfl
  | boolv b => rfl
  | arr xs =>
    simp only [wfValue] at h
    simp [validateMetadataFilterValue, h]
  | obj kvs =>
    exact wfEntries_validate_none kvs path (by simpa [wfValue] using h)

theorem wfEntries_validate_none (kvs : FilterEntries) (path : List String)
    (h : wfEntries kvs = true) : validateEntries kvs path = none := by
  cases kvs with
  | nil => rfl
  | cons k v rest =>
    simp only [wfEntries, Bool.and_eq_true] at h
    obtain ⟨⟨hkey, hv⟩, hrest⟩ := h
    have hval := wfValue_validate_none v (path ++ [k]) hv
    have hr := wfEntries_validate_none rest path hrest
    have hc1 : (startsWithDollar k && !(ALLOWED_FILTER_OPERATORS.contains k)) = false := by
      cases hd : startsWithDollar k with
      | false => simp
      | true =>
        simp only [hd, Bool.true_or, Bool.or_eq_true, Bool.not_eq_true'] at hkey
        rcases hkey with hkey | hkey
        · simp at hkey
        · simp [Bool.and_eq_true] at hkey ⊢
          exact hkey.1
    have hc2 : (startsWithDollar k && (k == "$in" || k == "$nin")
        && !isPrimitiveArray v) = false := by
      cases hd : startsWithDollar k with
      | false => simp
      | true =>
        simp only [hd, Bool.or_eq_true, Bool.not_eq_true'] at hkey
        rcases hkey with hkey | hkey
        · simp at hkey
        · rcases Bool.and_eq_true .. |>.mp hkey with ⟨_, hk2⟩
          cases hin : (k == "$in" || k == "$nin") with
          | false => simp [hin]
          | true =>
            simp only [hin, Bool.or_eq_true, Bool.not_eq_true'] at hk2
            rcases hk2 with hk2 | hk2
            · simp at hk2
            · simp [hk2]
    simp only [validateEntries, hc1, Bool.false_eq_true, if_false, hc2, hval, hr]
end


theorem isPrimitive_no_badkey (v : FilterValue) (h : isPrimitiveFilterValue v = true) :
    hasBadKeyV v = false := by
  cases v <;> simp_all [isPrimitiveFilterValue, hasBadKeyV]

theorem primList_no_badkey (xs : FilterList) (h : isPrimitiveList xs = true) :
    hasBadKeyL xs = false := by
  cases xs with
  | nil => rfl
  | cons v rest =>
    simp only [isPrimitiveList, Bool.and_eq_true] at h
    simp [hasBadKeyL, isPrimitive_no_badkey v h.1, primList_no_badkey rest h.2]

theorem isPrimitive_no_misuse (v : FilterValue) (h : isPrimitiveFilterValue v = true) :
    hasInNinMisuseV v = false := by
  cases v <;> simp_all [isPrimitiveFilterValue, hasInNinMisuseV]

theorem primList_no_misuse (xs : FilterList) (h : isPrimitiveList xs = true) :
    hasInNinMisuseL xs = false := by
  cases xs with
  | nil => rfl
  | cons v rest =>
    simp only [isPrimitiveList, Bool.and_eq_true] at h
    simp [hasInNinMisuseL, isPrimitive_no_misuse v h.1, primList_no_misuse rest h.2]

mutual
theorem hasBadKeyV_not_none (v : FilterValue) (path : List String)
    (h : hasBadKeyV v = true) : validateMetadataFilterValue v path ≠ none := by
  cases v with
  | nullv => simp [validateMetadataFilterValue]
  | str s => simp [hasBadKeyV] at h
  | num n => simp [hasBadKeyV] at h
  | boolv b => simp [hasBadKeyV] at h
  | arr xs =>
    simp only [hasBadKeyV] at h
    have hprim : isPrimitiveList xs = false := by
      by_contra hc
      rw [Bool.not_eq_false] at hc
      rw [primList_no_badkey xs hc] at h
      exact Bool.false_ne_true h
    simp [validateMetadataFilterValue, hprim]
  | obj kvs =>
    exact hasBadKeyE_not_none kvs path (by simpa [hasBadKeyV] using h)

theorem hasBadKeyE_not_none (kvs : FilterEntries) (path : List String)
    (h : hasBadKeyE kvs = true) : validateEntries kvs path ≠ none := by
  cases kvs with
  | nil => simp [hasBadKeyE] at h
  | cons k v rest =>
    simp only [hasBadKeyE, Bool.or_eq_true] at h
    by_cases hc1 : (startsWithDollar k && !(ALLOWED_FILTER_OPERATORS.contains k)) = true
    · simp only [validateEntries, hc1, eq_self_iff_true, if_true]
      simp
    · rw [Bool.not_eq_true] at hc1
      rcases h with (h | h) | h
      · rw [h] at hc1
        exact absurd hc1 (by decide)
      · have hv := hasBadKeyV_not_none v (path ++ [k]) h
        simp only [validateEntries, hc1, Bool.false_eq_true, if_false]
        by_cases hc2 : (startsWithDollar k && (k == "$in" || k == "$nin")
            && !isPrimitiveArray v) = true
        · simp only [hc2, eq_self_iff_true, if_true]
          simp
        · rw [Bool.not_eq_true] at hc2
          simp only [hc2, Bool.false_eq_true, if_false]
          cases hval : validateMetadataFilterValue v (path ++ [k]) with
          | none => exact absurd hval hv
          | some err => simp
      · have hr := hasBadKeyE_not_none rest path h
        simp only [validateEntries, hc1, Bool.false_eq_true, if_false]
        by_cases hc2 : (startsWithDollar k && (k == "$in" || k == "$nin")
            && !isPrimitiveArray v) = true
        · simp only [hc2, eq_self_iff_true, if_true]
          simp
        · rw [Bool.not_eq_true] at hc2
          simp only [hc2, Bool.false_eq_true, if_false]
          cases hval : validateMetadataFilterValue v (path ++ [k]) with
          | none => exact hr
          | some err => simp
end

mutual
theorem hasInNinMisuseV_not_none (v : FilterValue) (path : List String)
    (h : hasInNinMisuseV v = true) : validateMetadataFilterValue v path ≠ none := by
  cases v with
  | nullv => simp [validateMetadataFilterValue]
  | str s => simp [hasInNinMisuseV] at h
  | num n => simp [hasInNinMisuseV] at h
  | boolv b => simp [hasInNinMisuseV] at h
  | arr xs =>
    simp only [hasInNinMisuseV] at h
    have hprim : isPrimitiveList xs = false := by
      by_contra hc
      rw [Bool.not_eq_false] at hc
      rw [primList_no_misuse xs hc] at h
      exact Bool.false_ne_true h
    simp [validateMetadataFilterValue, hprim]
  | obj kvs =>
    exact hasInNinMisuseE_not_none kvs path (by simpa [hasInNinMisuseV] using h)

theorem hasInNinMisuseE_not_none (kvs : FilterEntries) (path : List String)
    (h : hasInNinMisuseE kvs = true) : validateEntries kvs path ≠ none := by
  cases kvs with
  | nil => simp [hasInNinMisuseE] at h
  | cons k v rest =>
    simp only [hasInNinMisuseE, Bool.or_eq_true] at h
    by_cases hc1 : (startsWithDollar k && !(ALLOWED_FILTER_OPERATORS.contains k)) = true
    · simp only [validateEntries, hc1, eq_self_iff_true, if_true]
      simp
    · rw [Bool.not_eq_true] at hc1
      by_cases hc2 : (startsWithDollar k && (k == "$in" || k == "$nin")
          && !isPrimitiveArray v) = true
      · simp only [validateEntries, hc1, Bool.false_eq_true, if_false, hc2,
          eq_self_iff_true, if_true]
        simp
      · rw [Bool.not_eq_true] at hc2
        rcases h with (h | h) | h
        · exfalso
          rcases Bool.and_eq_true .. |>.mp h with ⟨hk, hp⟩
          have hd : startsWithDollar k = true := by
            rcases Bool.or_eq_true .. |>.mp hk with hk' | hk'
            · rw [beq_iff_eq] at hk'
              subst hk'
              decide
            · rw [beq_iff_eq] at hk'
              subst hk'
              decide
          have hcontra : (startsWithDollar k && (k == "$in" || k == "$nin")
              && !isPrimitiveArray v) = true := by
            rw [hd, hk, hp]
            decide
          exact absurd (hcontra.symm.trans hc2) (by decide)
        · have hv := hasInNinMisuseV_not_none v (path ++ [k]) h
          simp only [validateEntries, hc1, Bool.false_eq_true, if_false, hc2]
          cases hval : validateMetadataFilterValue v (path ++ [k]) with
          | none => exact absurd hval hv
          | some err => simp
        · have hr := hasInNinMisuseE_not_none rest path h
          simp only [validateEntries, hc1, Bool.false_eq_true, if_false, hc2]
          cases hval : validateMetadataFilterValue v (path ++ [k]) with
          | none => exact hr
          | some err => simp
end

def wfTop : FilterEntries → Bool
  | .nil => true
  | .cons _ v rest => wfValue v && wfTop rest

def hasBadKeyTop : FilterEntries → Bool
  | .nil => false
  | .cons _ v rest => hasBadKeyV v || hasBadKeyTop rest

def hasMisuseTop : FilterEntries → Bool
  | .nil => false
  | .cons _ v rest => hasInNinMisuseV v || hasMisuseTop rest

theorem wfTop_validate_none (kvs : FilterEntries) (h : wfTop kvs = true) :
    validateMetadataFilter kvs = none := by
  cases kvs with
  | nil => rfl
  | cons field v rest =>
    simp only [wfTop, Bool.and_eq_true] at h
    simp only [validateMetadataFilter, wfValue_validate_none v [field] h.1,
      wfTop_validate_none rest h.2]

theorem hasBadKeyTop_not_none (kvs : FilterEntries) (h : hasBadKeyTop kvs = true) :
    validateMetadataFilter kvs ≠ none := by
  cases kvs with
  | nil => simp [hasBadKeyTop] at h
  | cons field v rest =>
    simp only [hasBadKeyTop, Bool.or_eq_true] at h
    cases hval : validateMetadataFilterValue v [field] with
    | some err => simp [validateMetadataFilter, hval]
    | none =>
      rcases h with h | h
      · exact absurd hval (hasBadKeyV_not_none v [field] h)
      · simp only [validateMetadataFilter, hval]
        exact hasBadKeyTop_not_none rest h

theorem hasMisuseTop_not_none (kvs : FilterEntries) (h : hasMisuseTop kvs = true) :
    validateMetadataFilter kvs ≠ none := by
  cases kvs with
  | nil => simp [hasMisuseTop] at h
  | cons field v rest =>
    simp only [hasMisuseTop, Bool.or_eq_true] at h
    cases hval : validateMetadataFilterValue v [field] with
    | some err => simp [validateMetadataFilter, hval]
    | none =>
      rcases h with h | h
      · exact absurd hval (hasInNinMisuseV_not_none v [field] h)
      · simp only [validateMetadataFilter, hval]
        exact hasMisuseTop_not_none rest h

/-- C8 counterexample: a `$`-key at the TOP level of the filter is never
inspected — `validateMetadataFilter {"$bogus": 1}` returns null although
`$bogus` begins with `$` and is outside the allowed operator set. -/
theorem validateMetadataFilter_counterexample :
    validateMetadataFilter (.cons "$bogus" (.num 1) .nil) = none ∧
    startsWithDollar "$bogus" = true ∧
    ALLOWED_FILTER_OPERATORS.contains "$bogus" = false := by
  refine ⟨?_, by decide, by decide⟩
  rfl

/-- A structured description of one invalidity, in the claim's terms. -/
inductive FilterFlaw where
  | nullAt (path : List String)
  | badArrayAt (path : List String)
  | badKeyAt (key : String) (path : List String)
  | inNinAt (key : String) (path : List String)
deriving DecidableEq

/-- The message the validator renders for a flaw. -/
def flawMsg : FilterFlaw → String
  | .nullAt p => nullMsg p
  | .badArrayAt p => unsupportedValueMsg p
  | .badKeyAt k p => unsupportedOpMsg k p
  | .inNinAt k p => inNinMsg k p

mutual
/-- The first flaw the validator's traversal encounters, as structured
data: this follows the claim's words ("no error is encountered earlier in
traversal") so that it can be compared against the code's rendered
message. -/
def firstFlawValue : FilterValue → List String → Option FilterFlaw
  | .nullv, path => some (.nullAt path)
  | .str _, _ => none
  | .num _, _ => none
  | .boolv _, _ => none
  | .arr xs, path =>
    if isPrimitiveList xs then none else some (.badArrayAt path)
  | .obj kvs, path => firstFlawEntries kvs path

def firstFlawEntries : FilterEntries → List String → Option FilterFlaw
  | .nil, _ => none
  | .cons k v rest, path =>
    if startsWithDollar k && !(ALLOWED_FILTER_OPERATORS.contains k) then
      some (.badKeyAt k path)
    else if startsWithDollar k && (k == "$in" || k == "$nin") && !isPrimitiveArray v then
      some (.inNinAt k path)
    else
      match firstFlawValue v (path ++ [k]) with
      | some f => some f
      | none => firstFlawEntries rest path
end

/-- The first flaw over the whole filter (top-level keys are not flaws:
the code never inspects them). -/
def firstFlawTop : FilterEntries → Option FilterFlaw
  | .nil => none
  | .cons field v rest =>
    match firstFlawValue v [field] with
    | some f => some f
    | none => firstFlawTop rest

mutual
theorem validate_eq_firstFlaw_V (v : FilterValue) (path : List String) :
    validateMetadataFilterValue v path = (firstFlawValue v path).map flawMsg := by
  cases v with
  | nullv => rfl
  | str s => rfl
  | num n => rfl
  | boolv b => rfl
  | arr xs =>
    by_cases h : isPrimitiveList xs = true
    · simp [validateMetadataFilterValue, firstFlawValue, h]
    · rw [Bool.not_eq_true] at h
      simp [validateMetadataFilterValue, firstFlawValue, h, flawMsg]
  | obj kvs => exact validate_eq_firstFlaw_E kvs path

theorem validate_eq_firstFlaw_E (kvs : FilterEntries) (path : List String) :
    validateEntries kvs path = (firstFlawEntries kvs path).map flawMsg := by
  cases kvs with
  | nil => rfl
  | cons k v rest =>
    by_cases hc1 : (startsWithDollar k && !(ALLOWED_FILTER_OPERATORS.contains k)) = true
    · simp only [validateEntries, firstFlawEntries, hc1, eq_self_iff_true, if_true]
      rfl
    · rw [Bool.not_eq_true] at hc1
      by_cases hc2 : (startsWithDollar k && (k == "$in" || k == "$nin")
          && !isPrimitiveArray v) = true
      · simp only [validateEntries, firstFlawEntries, hc1, Bool.false_eq_true, if_false,
          hc2, eq_self_iff_true, if_true]
        rfl
      · rw [Bool.not_eq_true] at hc2
        simp only [validateEntries, firstFlawEntries, hc1, Bool.false_eq_true, if_false, hc2]
        rw [validate_eq_firstFlaw_V v (path ++ [k])]
        cases hf : firstFlawValue v (path ++ [k]) with
        | some f => simp
        | none => simpa using validate_eq_firstFlaw_E rest path
end

/-- The validator returns exactly the rendered message of the first flaw
encountered in traversal order (null when there is none). -/
theorem validate_eq_firstFlaw_top (kvs : FilterEntries) :
    validateMetadataFilter kvs = (firstFlawTop kvs).map flawMsg := by
  cases kvs with
  | nil => rfl
  | cons field v rest =>
    simp only [validateMetadataFilter, firstFlawTop]
    rw [validate_eq_firstFlaw_V v [field]]
    cases hf : firstFlawValue v [field] with
    | some f => simp
    | none => simpa using validate_eq_firstFlaw_top rest

mutual
theorem firstFlaw_badKey_sound_V (v : FilterValue) (path : List String) (k : String)
    (p : List String) (h : firstFlawValue v path = some (.badKeyAt k p)) :
    startsWithDollar k = true ∧ ALLOWED_FILTER_OPERATORS.contains k = false := by
  cases v with
  | nullv => simp [firstFlawValue] at h
  | str s => simp [firstFlawValue] at h
  | num n => simp [firstFlawValue] at h
  | boolv b => simp [firstFlawValue] at h
  | arr xs =>
    by_cases hp : isPrimitiveList xs = true <;> simp [firstFlawValue, hp] at h
  | obj kvs =>
    exact firstFlaw_badKey_sound_E kvs path k p (by simpa [firstFlawValue] using h)

theorem firstFlaw_badKey_sound_E (kvs : FilterEntries) (path : List String) (k : String)
    (p : List String) (h : firstFlawEntries kvs path = some (.badKeyAt k p)) :
    startsWithDollar k = true ∧ ALLOWED_FILTER_OPERATORS.contains k = false := by
  cases kvs with
  | nil => simp [firstFlawEntries] at h
  | cons k0 v rest =>
    by_cases hc1 : (startsWithDollar k0 && !(ALLOWED_FILTER_OPERATORS.contains k0)) = true
    · simp only [firstFlawEntries, hc1, eq_self_iff_true, if_true, Option.some.injEq,
        FilterFlaw.badKeyAt.injEq] at h
      obtain ⟨hk, _⟩ := h
      subst hk
      rcases Bool.and_eq_true .. |>.mp hc1 with ⟨hd, hnc⟩
      exact ⟨hd, by simpa using hnc⟩
    · rw [Bool.not_eq_true] at hc1
      by_cases hc2 : (startsWithDollar k0 && (k0 == "$in" || k0 == "$nin")
          && !isPrimitiveArray v) = true
      · simp only [firstFlawEntries, hc1, Bool.false_eq_true, if_false, hc2,
          eq_self_iff_true, if_true] at h
        simp at h
      · rw [Bool.not_eq_true] at hc2
        simp only [firstFlawEntries, hc1, Bool.false_eq_true, if_false, hc2] at h
        cases hf : firstFlawValue v (path ++ [k0]) with
        | some f =>
          rw [hf] at h
          simp only [Option.some.injEq] at h
          exact firstFlaw_badKey_sound_V v (path ++ [k0]) k p (by rw [hf, h])
        | none =>
          rw [hf] at h
          exact firstFlaw_badKey_sound_E rest path k p h
end

mutual
theorem firstFlaw_inNin_sound_V (v : FilterValue) (path : List String) (k : String)
    (p : List String) (h : firstFlawValue v path = some (.inNinAt k p)) :
    k = "$in" ∨ k = "$nin" := by
  cases v with
  | nullv => simp [firstFlawValue] at h
  | str s => simp [firstFlawValue] at h
  | num n => simp [firstFlawValue] at h
  | boolv b => simp [firstFlawValue] at h
  | arr xs =>
    by_cases hp : isPrimitiveList xs = true <;> simp [firstFlawValue, hp] at h
  | obj kvs =>
    exact firstFlaw_inNin_sound_E kvs path k p (by simpa [firstFlawValue] using h)

theorem firstFlaw_inNin_sound_E (kvs : FilterEntries) (path : List String) (k : String)
    (p : List String) (h : firstFlawEntries kvs path = some (.inNinAt k p)) :
    k = "$in" ∨ k = "$nin" := by
  cases kvs with
  | nil => simp [firstFlawEntries] at h
  | cons k0 v rest =>
    by_cases hc1 : (startsWithDollar k0 && !(ALLOWED_FILTER_OPERATORS.contains k0)) = true
    · simp only [firstFlawEntries, hc1, eq_self_iff_true, if_true] at h
      simp at h
    · rw [Bool.not_eq_true] at hc1
      by_cases hc2 : (startsWithDollar k0 && (k0 == "$in" || k0 == "$nin")
          && !isPrimitiveArray v) = true
      · simp only [firstFlawEntries, hc1, Bool.false_eq_true, if_false, hc2,
          eq_self_iff_true, if_true, Option.some.injEq, FilterFlaw.inNinAt.injEq] at h
        obtain ⟨hk, _⟩ := h
        subst hk
        have hin : (k0 == "$in" || k0 == "$nin") = true := by
          rcases Bool.and_eq_true .. |>.mp hc2 with ⟨h12, _⟩
          exact (Bool.and_eq_true .. |>.mp h12).2
        rcases Bool.or_eq_true .. |>.mp hin with hk1 | hk1
        · exact Or.inl (by rwa [beq_iff_eq] at hk1)
        · exact Or.inr (by rwa [beq_iff_eq] at hk1)
      · rw [Bool.not_eq_true] at hc2
        simp only [firstFlawEntries, hc1, Bool.false_eq_true, if_false, hc2] at h
        cases hf : firstFlawValue v (path ++ [k0]) with
        | some f =>
          rw [hf] at h
          simp only [Option.some.injEq] at h
          exact firstFlaw_inNin_sound_V v (path ++ [k0]) k p (by rw [hf, h])
        | none =>
          rw [hf] at h
          exact firstFlaw_inNin_sound_E rest path k p h
end

theorem firstFlawTop_badKey_sound (kvs : FilterEntries) (k : String) (p : List String)
    (h : firstFlawTop kvs = some (.badKeyAt k p)) :
    startsWithDollar k = true ∧ ALLOWED_FILTER_OPERATORS.contains k = false := by
  cases kvs with
  | nil => simp [firstFlawTop] at h
  | cons field v rest =>
    simp only [firstFlawTop] at h
    cases hf : firstFlawValue v [field] with
    | some f =>
      rw [hf] at h
      simp only [Option.some.injEq] at h
      exact firstFlaw_badKey_sound_V v [field] k p (by rw [hf, h])
    | none =>
      rw [hf] at h
      exact firstFlawTop_badKey_sound rest k p h

theorem firstFlawTop_inNin_sound (kvs : FilterEntries) (k : String) (p : List String)
    (h : firstFlawTop kvs = some (.inNinAt k p)) : k = "$in" ∨ k = "$nin" := by
  cases kvs with
  | nil => simp [firstFlawTop] at h
  | cons field v rest =>
    simp only [firstFlawTop] at h
    cases hf : firstFlawValue v [field] with
    | some f =>
      rw [hf] at h
      simp only [Option.some.injEq] at h
      exact firstFlaw_inNin_sound_V v [field] k p (by rw [hf, h])
    | none =>
      rw [hf] at h
      exact firstFlawTop_inNin_sound rest k p h

/-- C8 (amended): (a) a filter whose every value is well-formed (primitive,
primitive array, or nested mapping with allowed `$`-operators and
`$in`/`$nin` holding primitive arrays) validates to null; (b) an
unsupported `$`-key below the top level always yields a non-null message,
and when no null value, non-primitive array, or `$in`/`$nin` misuse is
encountered earlier in traversal (the bad key is the first flaw), the
returned message names that key; (c) likewise a nested `$in`/`$nin`
holding a non-primitive-array always yields a non-null message, and when
it is the first flaw in traversal order the message is the
array-of-primitive-values diagnostic naming that operator. -/
theorem validateMetadataFilter_spec (kvs : FilterEntries) :
    (wfTop kvs = true → validateMetadataFilter kvs = none)
    ∧ (hasBadKeyTop kvs = true → validateMetadataFilter kvs ≠ none)
    ∧ (∀ k p, firstFlawTop kvs = some (.badKeyAt k p) →
        startsWithDollar k = true ∧ ALLOWED_FILTER_OPERATORS.contains k = false ∧
        validateMetadataFilter kvs = some (unsupportedOpMsg k p))
    ∧ (hasMisuseTop kvs = true → validateMetadataFilter kvs ≠ none)
    ∧ (∀ k p, firstFlawTop kvs = some (.inNinAt k p) →
        (k = "$in" ∨ k = "$nin") ∧
        validateMetadataFilter kvs = some (inNinMsg k p)) := by
  refine ⟨wfTop_validate_none kvs, hasBadKeyTop_not_none kvs, ?_,
    hasMisuseTop_not_none kvs, ?_⟩
  · intro k p h
    obtain ⟨h1, h2⟩ := firstFlawTop_badKey_sound kvs k p h
    refine ⟨h1, h2, ?_⟩
    rw [validate_eq_firstFlaw_top, h]
    rfl
  · intro k p h
    refine ⟨firstFlawTop_inNin_sound kvs k p h, ?_⟩
    rw [validate_eq_firstFlaw_top, h]
    rfl

theorem validateMetadataFilter_spec_witness :
    (startsWithDollar "$bogus" = true ∧
      ALLOWED_FILTER_OPERATORS.contains "$bogus" = false ∧
      validateMetadataFilter
        (.cons "a" (.obj (.cons "$bogus" (.num 1) .nil))
          (.cons "b" (.obj (.cons "$in" (.num 5) .nil)) .nil)) =
        some (unsupportedOpMsg "$bogus" ["a"])) :=
  (validateMetadataFilter_spec
      (.cons "a" (.obj (.cons "$bogus" (.num 1) .nil))
        (.cons "b" (.obj (.cons "$in" (.num 5) .nil)) .nil))).2.2.1
    "$bogus" ["a"] (by decide)

/-! ### Document reassembly (server/reassemble-documents.ts) -/

def CHUNK_ORDER_KEYS : List String := ["chunk_index", "chunk_index_0", "index", "loc"]

/-- `getDocumentKey(hit)`: document_number, else url, else doc_id (string
typed), else `hit.id`. -/
def getDocumentKey (hit : SearchResult) : String :=
  let m := hit.metadata
  match strField m "document_number" with
  | some s => s
  | none =>
    match strField m "url" with
    | some s => s
    | none =>
      match strField m "doc_id" with
      | some s => s
      | none => hit.id

def digitsToNat (l : List Char) : Nat :=
  l.foldl (fun acc c => acc * 10 + (c.toNat - '0'.toNat)) 0

/-- One candidate of `getChunkOrder`: a number is used as is, a `/^\d+$/`
string is parsed, anything else defers to the next candidate key. -/
def getChunkOrderKey (m : List (String × MetaValue)) (k : String) : Option Int :=
  match fieldLookup m k with
  | some (.num n) => some n
  | some (.str s) =>
    if !s.toList.isEmpty && s.toList.all (fun c => '0' ≤ c && c ≤ '9') then
      some (Int.ofNat (digitsToNat s.toList))
    else none
  | _ => none

/-- `getChunkOrder(metadata)`: first usable candidate, `-1` when none. -/
def getChunkOrder (m : List (String × MetaValue)) : Int :=
  match (CHUNK_ORDER_KEYS.filterMap (getChunkOrderKey m)).head? with
  | some n => n
  | none => -1

/-- Append a hit to its document group (JS Map insertion order). -/
def insertByDoc (acc : List (String × List SearchResult)) (k : String)
    (h : SearchResult) : List (String × List SearchResult) :=
  match acc with
  | [] => [(k, [h])]
  | (k', l) :: t => if k' = k then (k', l ++ [h]) :: t else (k', l) :: insertByDoc t k h

/-- One iteration of the grouping loop: hits with an empty (falsy) document
key are skipped. -/
def byDocStep (acc : List (String × List SearchResult)) (hit : SearchResult) :
    List (String × List SearchResult) :=
  let key := getDocumentKey hit
  if key = "" then acc else insertByDoc acc key hit

def byDoc (results : List SearchResult) : List (String × List SearchResult) :=
  results.foldl byDocStep []

/-- The sort comparator of `reassembleByDocument` as a total preorder:
chunks with usable (nonnegative) order keys ascending and before the
others; everything else ties. -/
def chunkLeB (a b : SearchResult) : Bool :=
  let oa := getChunkOrder a.metadata
  let ob := getChunkOrder b.metadata
  if 0 ≤ oa then (if 0 ≤ ob then decide (oa ≤ ob) else true)
  else (if 0 ≤ ob then false else true)

def chunkLe (a b : SearchResult) : Prop := chunkLeB a b = true

instance : DecidableRel chunkLe := fun a b => inferInstanceAs (Decidable (_ = true))

instance : IsTotal SearchResult chunkLe := ⟨fun a b => by
  unfold chunkLe chunkLeB
  by_cases ha : (0 : Int) ≤ getChunkOrder a.metadata <;>
    by_cases hb : (0 : Int) ≤ getChunkOrder b.metadata <;>
      simp [ha, hb] <;> omega⟩

instance : IsTrans SearchResult chunkLe := ⟨fun a b c hab hbc => by
  unfold chunkLe chunkLeB at *
  by_cases ha : (0 : Int) ≤ getChunkOrder a.metadata <;>
    by_cases hb : (0 : Int) ≤ getChunkOrder b.metadata <;>
      by_cases hc : (0 : Int) ≤ getChunkOrder c.metadata <;>
        simp_all <;> omega⟩

/-- `Math.max` over the merged chunks' scores (groups are non-empty, so the
empty-list placeholder is never produced by `reassembleByDocument`). -/
def bestScoreOf (l : List SearchResult) : Int :=
  match l.map (fun c => c.score) with
  | [] => 0
  | s :: t => t.foldl max s

structure ReassembledDocument where
  document_id : String
  merged_content : String
  metadata : List (String × MetaValue)
  chunk_count : Nat
  best_score : Int
deriving DecidableEq

/-- One output document: sort the group stably by chunk order, cap at
`maxChunks`, join the trimmed non-empty contents, keep the first chunk's
metadata and the best score. -/
def mkDoc (docId : String) (chunks : List SearchResult) (maxChunks : Nat)
    (separator : String) : ReassembledDocument :=
  let sorted := List.insertionSort chunkLe chunks
  let toMerge := sorted.take maxChunks
  let pieces := (toMerge.map (fun c => trimChars c.content.toList)).filter
    (fun l => !l.isEmpty)
  { document_id := docId,
    merged_content := String.intercalate separator (pieces.map String.mk),
    metadata := ((toMerge.head?).map (fun c => c.metadata)).getD [],
    chunk_count := toMerge.length,
    best_score := bestScoreOf toMerge }

/-- `reassembleByDocument(results, options)` with explicit
`maxChunksPerDocument` and `contentSeparator` (defaults 200 and "\n\n"). -/
def reassembleByDocument (results : List SearchResult) (maxChunks : Nat)
    (separator : String) : List ReassembledDocument :=
  (byDoc results).map (fun p => mkDoc p.1 p.2 maxChunks separator)

/-- Concrete hit whose document key is the empty string. -/
def emptyKeyHit : SearchResult :=
  { id := "x", content := "hello", score := 1,
    metadata := [("document_number", .str "")], reranked := false }

/-- C9 counterexample: a hit whose computed document key is the falsy empty
string (here an empty `document_number`) is dropped: one input hit, zero
output documents — the grouping is not a partition of the input. -/
theorem reassembleByDocument_counterexample :
    reassembleByDocument [emptyKeyHit] 200 "\n\n" = [] ∧
    ([emptyKeyHit] : List SearchResult).length = 1 := by
  constructor
  · rfl
  · rfl

def getGroup : List (String × List SearchResult) → String → Option (List SearchResult)
  | [], _ => none
  | (k', l) :: t, k => if k' = k then some l else getGroup t k

theorem getGroup_insertByDoc (acc : List (String × List SearchResult)) (k k' : String)
    (h : SearchResult) :
    getGroup (insertByDoc acc k h) k' =
      if k = k' then some ((getGroup acc k).getD [] ++ [h]) else getGroup acc k' := by
  induction acc with
  | nil => by_cases hk : k = k' <;> simp [insertByDoc, getGroup, hk]
  | cons p t ih =>
    obtain ⟨k₀, l₀⟩ := p
    by_cases h0 : k₀ = k
    · subst h0
      by_cases h1 : k₀ = k' <;> simp [insertByDoc, getGroup, h1]
    · by_cases h1 : k₀ = k'
      · have hkk : k ≠ k' := fun he => h0 (h1.trans he.symm)
        simp [insertByDoc, getGroup, h0, h1, hkk, Ne.symm hkk]
      · simp [insertByDoc, getGroup, h0, h1, ih]

theorem getGroup_foldl (results : List SearchResult)
    (acc : List (String × List SearchResult)) (k : String) (hk : k ≠ "") :
    getGroup (results.foldl byDocStep acc) k =
      match getGroup acc k, results.filter (fun h => getDocumentKey h = k) with
      | none, [] => none
      | some g, hs => some (g ++ hs)
      | none, hs => some hs := by
  induction results generalizing acc with
  | nil =>
    cases hacc : getGroup acc k with
    | none => simp [hacc]
    | some g => simp [hacc]
  | cons hit t ih =>
    rw [List.foldl_cons, ih (byDocStep acc hit)]
    by_cases hkey : getDocumentKey hit = ""
    · have hne : (decide (getDocumentKey hit = k)) = false := by
        simp only [decide_eq_false_iff_not]
        rw [hkey]
        exact fun he => hk he.symm
      have hstep : byDocStep acc hit = acc := by simp [byDocStep, hkey]
      rw [hstep]
      simp only [List.filter_cons, hne, Bool.false_eq_true, if_false]
    · by_cases heq : getDocumentKey hit = k
      · have hstep : byDocStep acc hit = insertByDoc acc k hit := by
          simp [byDocStep, hkey, heq, hk]
        rw [hstep, getGroup_insertByDoc]
        simp only [if_pos rfl]
        have hp : (decide (getDocumentKey hit = k)) = true := by simp [heq]
        simp only [List.filter_cons, hp, if_true]
        cases hacc : getGroup acc k with
        | none => simp [hacc]
        | some g => simp [hacc]
      · have hstep : byDocStep acc hit = insertByDoc acc (getDocumentKey hit) hit := by
          simp [byDocStep, hkey]
        rw [hstep, getGroup_insertByDoc, if_neg heq]
        have hp : (decide (getDocumentKey hit = k)) = false := by simp [heq]
        simp only [List.filter_cons, hp, Bool.false_eq_true, if_false]

/-- byDoc from the empty accumulator: groups are exactly the per-key
filters of the input. -/
theorem getGroup_byDoc (results : List SearchResult) (k : String) (hk : k ≠ "") :
    getGroup (byDoc results) k =
      match results.filter (fun h => getDocumentKey h = k) with
      | [] => none
      | hs => some hs := by
  unfold byDoc
  rw [getGroup_foldl results [] k hk]
  cases hf : results.filter (fun h => getDocumentKey h = k) with
  | nil => simp [getGroup]
  | cons a t => simp [getGroup]

theorem getGroup_eq_none_iff (l : List (String × List SearchResult)) (k : String) :
    getGroup l k = none ↔ k ∉ l.map Prod.fst := by
  induction l with
  | nil => simp [getGroup]
  | cons p t ih =>
    obtain ⟨k₀, v₀⟩ := p
    by_cases h0 : k₀ = k
    · simp [getGroup, h0]
    · simp only [getGroup, h0, if_false, List.map_cons, List.mem_cons, ih]
      constructor
      · rintro hnot (he | hm)
        · exact h0 he.symm
        · exact hnot hm
      · intro hnot hm
        exact hnot (Or.inr hm)

theorem map_fst_insertByDoc (acc : List (String × List SearchResult)) (k : String)
    (h : SearchResult) :
    (insertByDoc acc k h).map Prod.fst =
      if getGroup acc k = none then acc.map Prod.fst ++ [k] else acc.map Prod.fst := by
  induction acc with
  | nil => simp [insertByDoc, getGroup]
  | cons p t ih =>
    obtain ⟨k₀, l₀⟩ := p
    by_cases h0 : k₀ = k
    · simp [insertByDoc, getGroup, h0]
    · simp only [insertByDoc, h0, if_false, getGroup, List.map_cons, ih]
      cases hg : getGroup t k with
      | none => simp
      | some g => simp

theorem nodup_keys_byDocStep (acc : List (String × List SearchResult)) (hit : SearchResult)
    (hn : (acc.map Prod.fst).Nodup) : ((byDocStep acc hit).map Prod.fst).Nodup := by
  unfold byDocStep
  by_cases hkey : getDocumentKey hit = ""
  · simpa [hkey] using hn
  · simp only [hkey, if_false]
    rw [map_fst_insertByDoc]
    cases hg : getGroup acc (getDocumentKey hit) with
    | none =>
      have hnot : getDocumentKey hit ∉ acc.map Prod.fst :=
        (getGroup_eq_none_iff acc _).mp hg
      simp [List.nodup_append, hn, hnot]
    | some g => simpa using hn

theorem nodup_keys_byDoc (results : List SearchResult) :
    ((byDoc results).map Prod.fst).Nodup := by
  unfold byDoc
  suffices h : ∀ acc : List (String × List SearchResult),
      (acc.map Prod.fst).Nodup → ((results.foldl byDocStep acc).map Prod.fst).Nodup by
    exact h [] (by simp)
  induction results with
  | nil => exact fun acc hacc => hacc
  | cons hit t ih =>
    intro acc hacc
    exact ih (byDocStep acc hit) (nodup_keys_byDocStep acc hit hacc)

theorem empty_key_not_in_byDoc (results : List SearchResult) :
    "" ∉ (byDoc results).map Prod.fst := by
  unfold byDoc
  suffices h : ∀ acc : List (String × List SearchResult),
      "" ∉ acc.map Prod.fst → "" ∉ (results.foldl byDocStep acc).map Prod.fst by
    exact h [] (by simp)
  induction results with
  | nil => exact fun acc hacc => hacc
  | cons hit t ih =>
    intro acc hacc
    apply ih
    unfold byDocStep
    by_cases hkey : getDocumentKey hit = ""
    · simpa [hkey] using hacc
    · simp only [hkey, if_false]
      rw [map_fst_insertByDoc]
      cases hg : getGroup acc (getDocumentKey hit) with
      | none =>
        intro hm
        rcases List.mem_append.mp hm with hm | hm
        · exact hacc hm
        · rw [List.mem_singleton] at hm
          exact hkey hm.symm
      | some g => simpa using hacc

theorem getGroup_of_mem_nodup (l : List (String × List SearchResult)) (k : String)
    (g : List SearchResult) (hn : (l.map Prod.fst).Nodup) (hp : (k, g) ∈ l) :
    getGroup l k = some g := by
  induction l with
  | nil => simp at hp
  | cons q t ih =>
    obtain ⟨k₀, g₀⟩ := q
    simp only [List.map_cons, List.nodup_cons] at hn
    obtain ⟨hkey0, htn⟩ := hn
    rcases List.mem_cons.mp hp with heq | hmem
    · obtain ⟨h1, h2⟩ := Prod.mk.injEq .. ▸ heq.symm
      simp [getGroup, h1.symm, h2]
    · have hk : k₀ ≠ k := by
        intro he
        subst he
        exact hkey0 (List.mem_map.mpr ⟨(k₀, g), hmem, rfl⟩)
      simp only [getGroup, hk, if_false]
      exact ih htn hmem

@[simp] theorem mkDoc_document_id (k : String) (g : List SearchResult) (m : Nat)
    (s : String) : (mkDoc k g m s).document_id = k := rfl

theorem chunkLe_imp_order (a b : SearchResult)
    (ha : 0 ≤ getChunkOrder a.metadata) (hb : 0 ≤ getChunkOrder b.metadata)
    (h : chunkLe a b) : getChunkOrder a.metadata ≤ getChunkOrder b.metadata := by
  unfold chunkLe chunkLeB at h
  simp only [ha, hb, if_true, decide_eq_true_eq] at h
  exact h

/-- C9 (amended): document ids are distinct; every input hit with a
non-empty document key lands in exactly one output document, and every
output document comes from such hits (hits with an empty key are dropped);
each document merges the first `maxChunks` chunks of its stably sorted
group, its chunks with usable (nonnegative) order keys appearing in
ascending order; and its chunk_count equals `min maxChunks (group size)`. -/
theorem reassembleByDocument_spec (results : List SearchResult) (maxChunks : Nat)
    (separator : String) :
    ((reassembleByDocument results maxChunks separator).map
        (fun d => d.document_id)).Nodup
    ∧ (∀ h ∈ results, getDocumentKey h ≠ "" →
        getDocumentKey h ∈ (reassembleByDocument results maxChunks separator).map
          (fun d => d.document_id))
    ∧ (∀ d ∈ reassembleByDocument results maxChunks separator,
        d.document_id ≠ "" ∧ ∃ h ∈ results, getDocumentKey h = d.document_id)
    ∧ (∀ d ∈ reassembleByDocument results maxChunks separator,
        ∃ toMerge, toMerge = (List.insertionSort chunkLe
            (results.filter (fun h => getDocumentKey h = d.document_id))).take maxChunks ∧
          d.merged_content = String.intercalate separator
            (((toMerge.map (fun c => trimChars c.content.toList)).filter
              (fun l => !l.isEmpty)).map String.mk) ∧
          d.chunk_count = toMerge.length ∧
          List.Sorted (fun x y => x ≤ y)
            ((toMerge.filter (fun h => decide (0 ≤ getChunkOrder h.metadata))).map
              (fun h => getChunkOrder h.metadata)))
    ∧ (∀ d ∈ reassembleByDocument results maxChunks separator,
        d.chunk_count = min maxChunks
          (results.filter (fun h => getDocumentKey h = d.document_id)).length) := by
  have hids : (reassembleByDocument results maxChunks separator).map
      (fun d => d.document_id) = (byDoc results).map Prod.fst := by
    unfold reassembleByDocument
    rw [List.map_map]
    apply List.map_congr_left
    intro p _
    rfl
  have hcore : ∀ d ∈ reassembleByDocument results maxChunks separator,
      ∃ k g, d = mkDoc k g maxChunks separator ∧ k ≠ "" ∧
        g = results.filter (fun h => getDocumentKey h = k) ∧ g ≠ [] := by
    intro d hd
    obtain ⟨p, hp, rfl⟩ := List.mem_map.mp hd
    obtain ⟨k, g⟩ := p
    have hkmem : k ∈ (byDoc results).map Prod.fst := List.mem_map.mpr ⟨(k, g), hp, rfl⟩
    have hk : k ≠ "" := fun he => empty_key_not_in_byDoc results (he ▸ hkmem)
    have hsome : getGroup (byDoc results) k = some g :=
      getGroup_of_mem_nodup _ _ _ (nodup_keys_byDoc results) hp
    rw [getGroup_byDoc results k hk] at hsome
    cases hf : results.filter (fun h => getDocumentKey h = k) with
    | nil =>
      rw [hf] at hsome
      simp at hsome
    | cons a t =>
      rw [hf] at hsome
      simp only [Option.some.injEq] at hsome
      refine ⟨k, g, rfl, hk, ?_, ?_⟩
      · rw [hf, hsome]
      · rw [← hsome]
        simp
  refine ⟨?_, ?_, ?_, ?_, ?_⟩
  · rw [hids]
    exact nodup_keys_byDoc results
  · intro h hh hkey
    rw [hids]
    have hne : getGroup (byDoc results) (getDocumentKey h) ≠ none := by
      rw [getGroup_byDoc results _ hkey]
      have hmem : h ∈ results.filter (fun x => getDocumentKey x = getDocumentKey h) :=
        List.mem_filter.mpr ⟨hh, by simp⟩
      cases hf : results.filter (fun x => getDocumentKey x = getDocumentKey h) with
      | nil =>
        rw [hf] at hmem
        simp at hmem
      | cons a t => simp
    by_contra hnot
    exact hne ((getGroup_eq_none_iff _ _).mpr hnot)
  · intro d hd
    obtain ⟨k, g, rfl, hk, hg, hgne⟩ := hcore d hd
    refine ⟨hk, ?_⟩
    cases hgl : g with
    | nil => exact absurd hgl hgne
    | cons a t =>
      have hamem : a ∈ results.filter (fun h => getDocumentKey h = k) := by
        rw [← hg, hgl]
        simp
      exact ⟨a, (List.mem_filter.mp hamem).1,
        by simpa using (List.mem_filter.mp hamem).2⟩
  · intro d hd
    obtain ⟨k, g, rfl, hk, hg, hgne⟩ := hcore d hd
    refine ⟨(List.insertionSort chunkLe g).take maxChunks,
      by rw [mkDoc_document_id, ← hg], rfl, rfl, ?_⟩
    have hsorted : List.Sorted chunkLe (List.insertionSort chunkLe g) :=
      List.sorted_insertionSort chunkLe g
    have htake : ((List.insertionSort chunkLe g).take maxChunks).Pairwise chunkLe :=
      List.Pairwise.sublist (List.take_sublist _ _) hsorted
    have hfil : (((List.insertionSort chunkLe g).take maxChunks).filter
        (fun h => decide (0 ≤ getChunkOrder h.metadata))).Pairwise chunkLe :=
      List.Pairwise.sublist (List.filter_sublist _) htake
    have himp : (((List.insertionSort chunkLe g).take maxChunks).filter
        (fun h => decide (0 ≤ getChunkOrder h.metadata))).Pairwise
        (fun a b => getChunkOrder a.metadata ≤ getChunkOrder b.metadata) := by
      apply hfil.imp_of_mem
      intro a b ha hb hr
      have ha' : 0 ≤ getChunkOrder a.metadata := by
        have := List.of_mem_filter ha
        simpa using this
      have hb' : 0 ≤ getChunkOrder b.metadata := by
        have := List.of_mem_filter hb
        simpa using this
      exact chunkLe_imp_order a b ha' hb' hr
    exact List.pairwise_map.mpr himp
  · intro d hd
    obtain ⟨k, g, rfl, hk, hg, hgne⟩ := hcore d hd
    have hlen : (mkDoc k g maxChunks separator).chunk_count
        = ((List.insertionSort chunkLe g).take maxChunks).length := rfl
    rw [hlen, List.length_take, (List.perm_insertionSort chunkLe g).length_eq,
      mkDoc_document_id, ← hg]

theorem reassembleByDocument_spec_witness :
    ("P1" : String) ∈ (reassembleByDocument
        [{ id := "c1", content := "one", score := 1,
           metadata := [("document_number", .str "P1"), ("chunk_index", .num 1)],
           reranked := false }] 200 "\n\n").map (fun d => d.document_id) :=
  (reassembleByDocument_spec
      [{ id := "c1", content := "one", score := 1,
         metadata := [("document_number", .str "P1"), ("chunk_index", .num 1)],
         reranked := false }] 200 "\n\n").2.1
    { id := "c1", content := "one", score := 1,
      metadata := [("document_number", .str "P1"), ("chunk_index", .num 1)],
      reranked := false } (by simp) (by decide)
